import Mathlib

/-!
Spring dampers, quaternion maps and inertialization.

A shallow embedding of `src/math/spring.hpp` (namespace `Spring`) and of the
normalization methods of `src/features/mm_feature.cpp`.

* `real_t` is an arbitrary linearly ordered field `K`; every function that only
  uses field arithmetic is an ordinary computable definition, so it can be
  evaluated over `ℚ` and reasoned about over `ℝ`.
* The C math library calls (`exp`, `sqrt`, `sin`, `cos`, `acos`, `atan`) are
  taken as function arguments, in the order they are listed in each definition;
  the theorems instantiate them with the real functions of Mathlib.
* The engine types `Vector3`, `Quaternion` and `Variant` are not part of the
  sources; they are modelled as the standard vector and quaternion algebra.
* In/out reference parameters become returned tuples.
* Default arguments of the source are explicit arguments here; call sites pass
  the source's default value.
* Where it matters whether a division or an array access is defined, the function
  has a checked form returning `Option`: `none` is a division by zero or an
  access outside an array.
* Where rounding matters, the function has a form on `float` values (suffix
  `_f32`): numbers are rationals, and every operation is rounded to the 32-bit or
  64-bit binary format that the C++ types of its operands give it.
-/

namespace Spring

/-- Modelled from the spec: the engine 3-vector value type (spec section 9, a small
value type with the usual vector-space operations). -/
@[ext]
structure Vector3 (K : Type) where
  x : K
  y : K
  z : K
deriving DecidableEq

/-- Modelled from the spec: the engine quaternion value type (spec section 9), fields in
the engine's order `x, y, z, w` with `w` the scalar part. -/
@[ext]
structure Quaternion (K : Type) where
  x : K
  y : K
  z : K
  w : K
deriving DecidableEq

section Engine

variable {K : Type} [LinearOrderedField K]

/-- Modelled from the spec: component-wise vector sum. -/
def Vector3.add (a b : Vector3 K) : Vector3 K := ⟨a.x + b.x, a.y + b.y, a.z + b.z⟩

/-- Modelled from the spec: component-wise vector difference. -/
def Vector3.sub (a b : Vector3 K) : Vector3 K := ⟨a.x - b.x, a.y - b.y, a.z - b.z⟩

/-- Modelled from the spec: vector times scalar (also used for scalar times vector). -/
def Vector3.scale (a : Vector3 K) (s : K) : Vector3 K := ⟨a.x * s, a.y * s, a.z * s⟩

/-- Modelled from the spec: vector divided by a scalar. -/
def Vector3.divs (a : Vector3 K) (s : K) : Vector3 K := ⟨a.x / s, a.y / s, a.z / s⟩

/-- Modelled from the spec: cross product of two vectors. -/
def Vector3.cross (a b : Vector3 K) : Vector3 K :=
  ⟨a.y * b.z - a.z * b.y, a.z * b.x - a.x * b.z, a.x * b.y - a.y * b.x⟩

/-- Modelled from the spec: the default-constructed vector `Vector3()`. -/
def Vector3.zero : Vector3 K := ⟨0, 0, 0⟩

instance : Add (Vector3 K) := ⟨Vector3.add⟩
instance : Sub (Vector3 K) := ⟨Vector3.sub⟩
instance : HMul (Vector3 K) K (Vector3 K) := ⟨Vector3.scale⟩
instance : HMul K (Vector3 K) (Vector3 K) := ⟨fun s a => Vector3.scale a s⟩
instance : HDiv (Vector3 K) K (Vector3 K) := ⟨Vector3.divs⟩

/-- Modelled from the spec: the default-constructed quaternion `Quaternion()`, the
identity rotation. -/
def Quaternion.identity : Quaternion K := ⟨0, 0, 0, 1⟩

/-- Modelled from the spec: quaternion negation. -/
def Quaternion.neg (q : Quaternion K) : Quaternion K := ⟨-q.x, -q.y, -q.z, -q.w⟩

/-- Modelled from the spec: the Hamilton product of two quaternions. -/
def Quaternion.mul (p q : Quaternion K) : Quaternion K :=
  ⟨p.w * q.x + p.x * q.w + p.y * q.z - p.z * q.y,
   p.w * q.y + p.y * q.w + p.z * q.x - p.x * q.z,
   p.w * q.z + p.z * q.w + p.x * q.y - p.y * q.x,
   p.w * q.w - p.x * q.x - p.y * q.y - p.z * q.z⟩

/-- Modelled from the spec: inverse of a unit quaternion, its conjugate. -/
def Quaternion.inverse (q : Quaternion K) : Quaternion K := ⟨-q.x, -q.y, -q.z, q.w⟩

/-- Modelled from the spec: squared length of a quaternion. -/
def Quaternion.length_squared (q : Quaternion K) : K :=
  q.x * q.x + q.y * q.y + q.z * q.z + q.w * q.w

/-- Modelled from the spec: quaternion scaled to unit length, `q * (1 / length)`. -/
def Quaternion.normalized (sqrt : K → K) (q : Quaternion K) : Quaternion K :=
  let s := 1 / sqrt q.length_squared
  ⟨q.x * s, q.y * s, q.z * s, q.w * s⟩

/-- Modelled from the spec: rotation of a vector by a unit quaternion. -/
def Quaternion.xform (q : Quaternion K) (p : Vector3 K) : Vector3 K :=
  let u : Vector3 K := ⟨q.x, q.y, q.z⟩
  let uv := u.cross p
  p + (uv * q.w + u.cross uv) * (2 : K)

instance : Neg (Quaternion K) := ⟨Quaternion.neg⟩
instance : Mul (Quaternion K) := ⟨Quaternion.mul⟩

/-- A quaternion of unit length. -/
def Quaternion.IsUnit (q : Quaternion K) : Prop := q.length_squared = 1

instance (q : Quaternion K) : Decidable q.IsUnit :=
  inferInstanceAs (Decidable (q.length_squared = 1))

end Engine

section Scalar

variable {K : Type} [LinearOrderedField K]

/-- The constant `Ln2`. -/
def Ln2 : K := 0.69314718056

/-- The function `square`. -/
def square (x : K) : K := x * x

/-- The rational approximation of `exp (-x)`. -/
def fast_negexp (x : K) : K :=
  1.0 / (1.0 + x + 0.48 * x * x + 0.235 * x * x * x)

/-- Damping coefficient of a halflife; the source's default `eps` is `1e-5`. -/
def halflife_to_damping (halflife eps : K) : K :=
  (4.0 * Ln2) / (halflife + eps)

/-- Halflife of a damping coefficient; the source's default `eps` is `1e-5`. -/
def damping_to_halflife (damping eps : K) : K :=
  (4.0 * Ln2) / (damping + eps)

/-- Stiffness giving the damping ratio `ratio` at damping `damping`. -/
def damping_ratio_to_stiffness (ratio damping : K) : K :=
  square (damping / (ratio * 2.0))

/-- Scalar overload of `_simple_spring_damper_exact`; returns the new `(x, v)`. -/
def _simple_spring_damper_exact (x v x_goal halflife dt : K) : K × K :=
  let y := halflife_to_damping halflife 1e-5 / 2.0
  let j0 := x - x_goal
  let j1 := v + j0 * y
  let eydt := fast_negexp (y * dt)
  (eydt * (j0 + j1 * dt) + x_goal, eydt * (v - j1 * y * dt))

/-- Scalar overload of `_decay_spring_damper_exact`; returns the new `(x, v)`. -/
def _decay_spring_damper_exact (x v halflife dt : K) : K × K :=
  let y := halflife_to_damping halflife 1e-5 / 2.0
  let j1 := v + x * y
  let eydt := fast_negexp (y * dt)
  (eydt * (x + j1 * dt), eydt * (v - j1 * y * dt))

/-- The `Vector3` overload of `_simple_spring_damper_exact`. -/
def _simple_spring_damper_exact_vec (x v x_goal : Vector3 K) (halflife dt : K) :
    Vector3 K × Vector3 K :=
  let y := halflife_to_damping halflife 1e-5 / 2.0
  let j0 := x - x_goal
  let j1 := v + j0 * y
  let eydt := fast_negexp (y * dt)
  (eydt * (j0 + j1 * dt) + x_goal, eydt * (v - j1 * y * dt))

/-- The `Vector3` overload of `_decay_spring_damper_exact`. -/
def _decay_spring_damper_exact_vec (x v : Vector3 K) (halflife dt : K) :
    Vector3 K × Vector3 K :=
  let y := halflife_to_damping halflife 1e-5 / 2.0
  let j1 := v + x * y
  let eydt := fast_negexp (y * dt)
  (eydt * (x + j1 * dt), eydt * (v - j1 * y * dt))

/-- The `Vector3` overload of `inertialize_transition`; returns the new
`(off_x, off_v)`. -/
def inertialize_transition_vec (off_x off_v src_x src_v dst_x dst_v : Vector3 K) :
    Vector3 K × Vector3 K :=
  ((src_x + off_x) - dst_x, (src_v + off_v) - dst_v)

/-- The `Vector3` overload of `inertialize_update`; returns
`(out_x, out_v, off_x, off_v)`. -/
def inertialize_update_vec (off_x off_v in_x in_v : Vector3 K) (halflife dt : K) :
    Vector3 K × Vector3 K × Vector3 K × Vector3 K :=
  let off := _decay_spring_damper_exact_vec off_x off_v halflife dt
  (in_x + off.1, in_v + off.2, off.1, off.2)

end Scalar

section Quat

variable {K : Type} [LinearOrderedField K]

/-- The function `quat_exp`; the source's default `eps` is `1e-8`. -/
def quat_exp (sqrt cos sin : K → K) (v : Vector3 K) (eps : K) : Quaternion K :=
  let halfangle := sqrt (v.x * v.x + v.y * v.y + v.z * v.z)
  if halfangle < eps then
    Quaternion.normalized sqrt ⟨v.x, v.y, v.z, 1.0⟩
  else
    let c := cos halfangle
    let s := sin halfangle / halfangle
    Quaternion.normalized sqrt ⟨s * v.x, s * v.y, s * v.z, c⟩

/-- The function template `clampf`. -/
def clampf (x min max : K) : K :=
  if x > max then max else if x < min then min else x

/-- The function `quat_abs`. -/
def quat_abs (sqrt : K → K) (q : Quaternion K) : Quaternion K :=
  Quaternion.normalized sqrt (if q.w < 0.0 then -q else q)

/-- The function `quat_log`; the source's default `eps` is `1e-8`. -/
def quat_log (sqrt acos : K → K) (q : Quaternion K) (eps : K) : Vector3 K :=
  let length := sqrt (q.x * q.x + q.y * q.y + q.z * q.z)
  if length < eps then
    ⟨q.x, q.y, q.z⟩
  else
    let halfangle := acos (clampf q.w (-1.0) 1.0)
    halfangle * ((⟨q.x, q.y, q.z⟩ : Vector3 K) / length)

/-- The function `quat_from_scaled_angle_axis`; the source's default `eps` is `1e-8`. -/
def quat_from_scaled_angle_axis (sqrt cos sin : K → K) (v : Vector3 K) (eps : K) :
    Quaternion K :=
  Quaternion.normalized sqrt (quat_exp sqrt cos sin (v / (2.0 : K)) eps)

/-- The function `quat_to_scaled_angle_axis`; the source's default `eps` is `1e-8`. -/
def quat_to_scaled_angle_axis (sqrt acos : K → K) (q : Quaternion K) (eps : K) :
    Vector3 K :=
  (2.0 : K) * quat_log sqrt acos q eps

/-- The `Quaternion` overload of `_simple_spring_damper_exact`. -/
def _simple_spring_damper_exact_quat (sqrt cos sin acos : K → K) (x : Quaternion K)
    (v : Vector3 K) (x_goal : Quaternion K) (halflife dt : K) :
    Quaternion K × Vector3 K :=
  let y := halflife_to_damping halflife 1e-5 / 2.0
  let j0 := quat_to_scaled_angle_axis sqrt acos (quat_abs sqrt (x * x_goal.inverse)) 1e-8
  let j1 := v + j0 * y
  let eydt := fast_negexp (y * dt)
  (quat_from_scaled_angle_axis sqrt cos sin (eydt * (j0 + j1 * dt)) 1e-8 * x_goal,
   eydt * (v - j1 * y * dt))

/-- The `Quaternion` overload of `_decay_spring_damper_exact`. -/
def _decay_spring_damper_exact_quat (sqrt cos sin acos : K → K) (x : Quaternion K)
    (v : Vector3 K) (halflife dt : K) : Quaternion K × Vector3 K :=
  let y := halflife_to_damping halflife 1e-5 / 2.0
  let j0 := quat_to_scaled_angle_axis sqrt acos x 1e-8
  let j1 := v + j0 * y
  let eydt := fast_negexp (y * dt)
  (quat_from_scaled_angle_axis sqrt cos sin (eydt * (j0 + j1 * dt)) 1e-8,
   eydt * (v - j1 * y * dt))

/-- The `Quaternion` overload of `inertialize_update`; returns
`(out_x, out_v, off_x, off_v)`. -/
def inertialize_update_quat (sqrt cos sin acos : K → K) (off_x : Quaternion K)
    (off_v : Vector3 K) (in_x : Quaternion K) (in_v : Vector3 K) (halflife dt : K) :
    Quaternion K × Vector3 K × Quaternion K × Vector3 K :=
  let off := _decay_spring_damper_exact_quat sqrt cos sin acos off_x off_v halflife dt
  (Quaternion.normalized sqrt (off.1 * in_x), off.2 + off.1.xform in_v, off.1, off.2)

/-- Two quaternions agree within `tol` on each of the `w`, `x`, `y`, `z` components. -/
def Quaternion.CloseTo (tol : K) (a b : Quaternion K) : Prop :=
  |a.w - b.w| ≤ tol ∧ |a.x - b.x| ≤ tol ∧ |a.y - b.y| ≤ tol ∧ |a.z - b.z| ≤ tol

/-- The round trip `quat_from_scaled_angle_axis (quat_to_scaled_angle_axis q)`, both
calls with the same `eps`. -/
def scaled_angle_axis_round_trip (sqrt cos sin acos : K → K) (q : Quaternion K) (eps : K) :
    Quaternion K :=
  quat_from_scaled_angle_axis sqrt cos sin (quat_to_scaled_angle_axis sqrt acos q eps) eps

end Quat

section Solver

variable {K : Type} [LinearOrderedField K]

/-- The general solver `_spring_damper_exact`; returns the new `(x, v)`. The source's
default `eps` is `1e-5`; `std::pow (a, 2)` is `a ^ 2`. When none of the three guards
holds the source leaves `x` and `v` untouched. -/
def _spring_damper_exact (exp sqrt atan cos sin : K → K)
    (x v x_goal v_goal damping_ratio halflife dt eps : K) : K × K :=
  let g := x_goal
  let q := v_goal
  let d := halflife_to_damping halflife 1e-5
  let s := damping_ratio_to_stiffness damping_ratio d
  let c := g + (d * q) / (s + eps)
  let y := d / 2.0
  if |s - (d * d) / 4.0| < eps then
    let j0 := x - c
    let j1 := v + j0 * y
    let eydt := exp (-y * dt)
    (j0 * eydt + dt * j1 * eydt + c, -y * j0 * eydt - y * dt * j1 * eydt + j1 * eydt)
  else if s - (d * d) / 4.0 > 0.0 then
    let w := sqrt (s - (d * d) / 4.0)
    let j := sqrt ((v + y * (x - c)) ^ 2 / (w ^ 2 + eps) + (x - c) ^ 2)
    let p := atan ((v + (x - c) * y) / (-(x - c) * w + eps))
    let j := if (x - c) > 0.0 then j else -j
    let eydt := exp (-y * dt)
    (j * eydt * cos (w * dt + p) + c,
     -y * j * eydt * cos (w * dt + p) - w * j * eydt * sin (w * dt + p))
  else if s - (d * d) / 4.0 < 0.0 then
    let y0 := (d + sqrt (d ^ 2 - 4.0 * s)) / 2.0
    let y1 := (d - sqrt (d ^ 2 - 4.0 * s)) / 2.0
    let j1 := (c * y0 - x * y0 - v) / (y1 - y0)
    let j0 := x - j1 - c
    let ey0dt := exp (-y0 * dt)
    let ey1dt := exp (-y1 * dt)
    (j0 * ey0dt + j1 * ey1dt + c, -y0 * j0 * ey0dt - y1 * j1 * ey1dt)
  else
    (x, v)

/-- The first (critically damped) branch of `_spring_damper_exact`, taken when
`|s - d * d / 4| < eps`. -/
def spring_damper_exact_critical_branch (exp : K → K)
    (x v x_goal v_goal damping_ratio halflife dt eps : K) : K × K :=
  let g := x_goal
  let q := v_goal
  let d := halflife_to_damping halflife 1e-5
  let s := damping_ratio_to_stiffness damping_ratio d
  let c := g + (d * q) / (s + eps)
  let y := d / 2.0
  let j0 := x - c
  let j1 := v + j0 * y
  let eydt := exp (-y * dt)
  (j0 * eydt + dt * j1 * eydt + c, -y * j0 * eydt - y * dt * j1 * eydt + j1 * eydt)

/-- The function `_timed_spring_damper_exact`; returns the new `(x, v, xi)`. The
source's default `apprehension` is `2.0`. -/
def _timed_spring_damper_exact (x v xi x_goal t_goal halflife dt apprehension : K) :
    K × K × K :=
  let min_time := if t_goal > dt then t_goal else dt
  let v_goal := (x_goal - xi) / min_time
  let t_goal_future := dt + apprehension * halflife
  let x_goal_future := if t_goal_future < t_goal then xi + v_goal * t_goal_future else x_goal
  let r := _simple_spring_damper_exact x v x_goal_future halflife dt
  (r.1, r.2, xi + v_goal * dt)

/-- Repeated calls of `_timed_spring_damper_exact` by a frame loop: the state after `n`
calls from `(x, v, xi)`, where call number `k` (counted from 0) passes the remaining
time `t_goal k`. -/
def timed_spring_run (x v xi x_goal halflife dt apprehension : K) (t_goal : Nat → K) :
    Nat → K × K × K
  | 0 => (x, v, xi)
  | k + 1 =>
    let s := timed_spring_run x v xi x_goal halflife dt apprehension t_goal k
    _timed_spring_damper_exact s.1 s.2.1 s.2.2 x_goal (t_goal k) halflife dt apprehension

/-- Repeated calls of the scalar `_simple_spring_damper_exact` with fixed parameters:
the state after `n` calls from `(x, v)`. -/
def simple_spring_iterate (x_goal halflife dt : K) (x v : K) : Nat → K × K
  | 0 => (x, v)
  | n + 1 =>
    let s := simple_spring_iterate x_goal halflife dt x v n
    _simple_spring_damper_exact s.1 s.2 x_goal halflife dt

/-- Repeated calls of the scalar `_decay_spring_damper_exact` with fixed parameters:
the state after `n` calls from `(x, v)`. -/
def decay_spring_iterate (halflife dt : K) (x v : K) : Nat → K × K
  | 0 => (x, v)
  | n + 1 =>
    let s := decay_spring_iterate halflife dt x v n
    _decay_spring_damper_exact s.1 s.2 halflife dt

end Solver

section Dispatch

variable {K : Type} [LinearOrderedField K]

/-- Modelled from the spec: the type tag of a dynamically typed operand (spec section 6,
"an operand of unknown concrete shape"); `OTHER` stands for every engine type the
adapters never test for. -/
inductive VariantType where
  | NIL
  | BOOL
  | INT
  | FLOAT
  | VECTOR3
  | QUATERNION
  | OTHER
deriving DecidableEq, Repr

/-- Modelled from the spec: the dynamically typed operand of the dispatch adapters. -/
inductive Variant (K : Type) where
  | NIL
  | BOOL (b : Bool)
  | INT (i : Int)
  | FLOAT (f : K)
  | VECTOR3 (v : Vector3 K)
  | QUATERNION (q : Quaternion K)
  | OTHER
deriving DecidableEq

/-- Modelled from the spec: the type tag of an operand, `Variant::get_type`. -/
def Variant.get_type : Variant K → VariantType
  | .NIL => .NIL
  | .BOOL _ => .BOOL
  | .INT _ => .INT
  | .FLOAT _ => .FLOAT
  | .VECTOR3 _ => .VECTOR3
  | .QUATERNION _ => .QUATERNION
  | .OTHER => .OTHER

/-- Modelled from the spec: the conversion `(real_t)` of an operand; numeric operands
convert to their value and every other operand to zero. -/
def Variant.to_real : Variant K → K
  | .BOOL b => if b then 1 else 0
  | .INT i => (i : K)
  | .FLOAT f => f
  | _ => 0

/-- Modelled from the spec: the conversion `(Vector3)` of an operand; a non-vector
operand converts to the zero vector. -/
def Variant.to_vector3 : Variant K → Vector3 K
  | .VECTOR3 v => v
  | _ => Vector3.zero

/-- Modelled from the spec: the conversion `(Quaternion)` of an operand; a
non-quaternion operand converts to the identity. -/
def Variant.to_quaternion : Variant K → Quaternion K
  | .QUATERNION q => q
  | _ => Quaternion.identity

/-- The dispatch adapter `simple_spring_damper_exact`; the returned `Array` is a list. -/
def simple_spring_damper_exact (sqrt cos sin acos : K → K) (x v x_goal : Variant K)
    (halflife dt : K) : List (Variant K) :=
  if x.get_type = VariantType.VECTOR3 ∧ v.get_type = VariantType.VECTOR3 ∧
      x_goal.get_type = VariantType.VECTOR3 then
    let r := _simple_spring_damper_exact_vec x.to_vector3 v.to_vector3 x_goal.to_vector3
      halflife dt
    [Variant.VECTOR3 r.1, Variant.VECTOR3 r.2]
  else if x.get_type = VariantType.QUATERNION ∧ v.get_type = VariantType.VECTOR3 ∧
      x_goal.get_type = VariantType.QUATERNION then
    let r := _simple_spring_damper_exact_quat sqrt cos sin acos x.to_quaternion
      v.to_vector3 x_goal.to_quaternion halflife dt
    [Variant.QUATERNION r.1, Variant.VECTOR3 r.2]
  else if x.get_type = VariantType.FLOAT ∧ v.get_type = VariantType.FLOAT ∧
      v.get_type = VariantType.FLOAT then
    let r := _simple_spring_damper_exact x.to_real v.to_real x_goal.to_real halflife dt
    [Variant.FLOAT r.1, Variant.FLOAT r.2]
  else
    []

end Dispatch

section Conversions

variable {K : Type} [LinearOrderedField K]

/-- The function `frequency_to_stiffness`; the engine constant `Math_PI` is not part
of the sources and is an argument. -/
def frequency_to_stiffness (Math_PI frequency : K) : K :=
  square (2.0 * Math_PI * frequency)

/-- The function `stiffness_to_frequency`; the engine constant `Math_PI` is not part
of the sources and is an argument. -/
def stiffness_to_frequency (sqrt : K → K) (Math_PI stiffness : K) : K :=
  sqrt stiffness / (2.0 * Math_PI)

/-- The function `maximum_spring_velocity_to_halflife`; `damping_to_halflife` is called
with its default `eps = 1e-5`. -/
def maximum_spring_velocity_to_halflife (exp : K → K) (x x_goal v_max : K) : K :=
  damping_to_halflife (2.0 * ((v_max / (x_goal - x)) * exp 1.0)) 1e-5

end Conversions

section Tangent

variable {K : Type} [LinearOrderedField K]

/-- Two vectors agree within `tol` on each of the `x`, `y`, `z` components. -/
def Vector3.CloseTo (tol : K) (a b : Vector3 K) : Prop :=
  |a.x - b.x| ≤ tol ∧ |a.y - b.y| ≤ tol ∧ |a.z - b.z| ≤ tol

end Tangent

section Checked

variable {K : Type} [LinearOrderedField K]

/-- A quotient of the field `K` as real arithmetic has it: undefined (`none`) when the
denominator is zero. -/
def checked_div (a b : K) : Option K :=
  if b = 0 then none else some (a / b)

/-- The function `halflife_to_damping` with its division checked. -/
def halflife_to_damping_checked (halflife eps : K) : Option K :=
  checked_div (4.0 * Ln2) (halflife + eps)

/-- The function `damping_ratio_to_stiffness` with its division checked. -/
def damping_ratio_to_stiffness_checked (ratio damping : K) : Option K :=
  (checked_div damping (ratio * 2.0)).map square

/-- The general solver `_spring_damper_exact` with every division by a computed
denominator checked: the result is `none` as soon as a denominator is zero, and
otherwise the state the source returns. Divisions by the literals `2.0` and `4.0`
are left as they are. -/
def _spring_damper_exact_checked (exp sqrt atan cos sin : K → K)
    (x v x_goal v_goal damping_ratio halflife dt eps : K) : Option (K × K) :=
  let g := x_goal
  let q := v_goal
  (halflife_to_damping_checked halflife 1e-5).bind fun d =>
  (damping_ratio_to_stiffness_checked damping_ratio d).bind fun s =>
  (checked_div (d * q) (s + eps)).bind fun dq =>
  let c := g + dq
  let y := d / 2.0
  if |s - (d * d) / 4.0| < eps then
    let j0 := x - c
    let j1 := v + j0 * y
    let eydt := exp (-y * dt)
    some (j0 * eydt + dt * j1 * eydt + c, -y * j0 * eydt - y * dt * j1 * eydt + j1 * eydt)
  else if s - (d * d) / 4.0 > 0.0 then
    let w := sqrt (s - (d * d) / 4.0)
    (checked_div ((v + y * (x - c)) ^ 2) (w ^ 2 + eps)).bind fun a =>
    let j := sqrt (a + (x - c) ^ 2)
    (checked_div (v + (x - c) * y) (-(x - c) * w + eps)).bind fun b =>
    let p := atan b
    let j := if (x - c) > 0.0 then j else -j
    let eydt := exp (-y * dt)
    some (j * eydt * cos (w * dt + p) + c,
      -y * j * eydt * cos (w * dt + p) - w * j * eydt * sin (w * dt + p))
  else if s - (d * d) / 4.0 < 0.0 then
    let y0 := (d + sqrt (d ^ 2 - 4.0 * s)) / 2.0
    let y1 := (d - sqrt (d ^ 2 - 4.0 * s)) / 2.0
    (checked_div (c * y0 - x * y0 - v) (y1 - y0)).bind fun j1 =>
    let j0 := x - j1 - c
    let ey0dt := exp (-y0 * dt)
    let ey1dt := exp (-y1 * dt)
    some (j0 * ey0dt + j1 * ey1dt + c, -y0 * j0 * ey0dt - y1 * j1 * ey1dt)
  else
    some (x, v)

end Checked

section Transition

variable {K : Type} [LinearOrderedField K]

/-- The `Quaternion` overload of `inertialize_transition`; returns the new
`(off_x, off_v)`. -/
def inertialize_transition_quat (sqrt : K → K) (off_x : Quaternion K) (off_v : Vector3 K)
    (src_x : Quaternion K) (src_v : Vector3 K) (dst_x : Quaternion K) (dst_v : Vector3 K) :
    Quaternion K × Vector3 K :=
  (Quaternion.normalized sqrt (quat_abs sqrt ((off_x * src_x) * dst_x.inverse)),
   (off_v + src_v) - dst_v)

/-- The four entries of the `Dictionary` returned by `binded_inertia_transition`. -/
structure TransitionResult (K : Type) where
  position_offset : Vector3 K
  velocity_offset : Vector3 K
  rotation_offset : Quaternion K
  angular_offset : Vector3 K

/-- The function `binded_inertia_transition`. -/
def binded_inertia_transition (sqrt : K → K) (off_x off_v src_x src_v dst_x dst_v : Vector3 K)
    (off_q : Quaternion K) (off_a : Vector3 K) (src_q : Quaternion K) (src_a : Vector3 K)
    (dst_q : Quaternion K) (dst_a : Vector3 K) : TransitionResult K :=
  { position_offset := (src_x + off_x) - dst_x
    velocity_offset := (src_v + off_v) - dst_v
    rotation_offset := quat_abs sqrt ((off_q * src_q) * dst_q.inverse)
    angular_offset := (off_a + src_a) - dst_a }

end Transition

section Feature

variable {K : Type} [LinearOrderedField K]

/-- The enumeration `MMFeature::NormalizationMode`. -/
inductive NormalizationMode where
  | Raw
  | Standard
  | MinMax
deriving DecidableEq, Repr

/-- The data members of `MMFeature` that normalization reads. The class declaration is
not part of the sources: `dimension_count` is the value returned by the virtual
`get_dimension_count()`, and the four statistics arrays are lists. -/
structure MMFeature (K : Type) where
  normalization_mode : NormalizationMode
  dimension_count : Int
  means : List K
  std_devs : List K
  maxes : List K
  mins : List K

/-- A `float*` argument: `none` is the null pointer, `some p` points to the values `p`. -/
abbrev Buffer (K : Type) := Option (List K)

/-- The loop of `_normalize_minmax` with `n` iterations left at index `i`. The result is
`none` when an index outside an array or outside the buffer is accessed.
`KINDA_SMALL_NUMBER` is not part of the sources and is an argument. -/
def MMFeature._normalize_minmax_loop (KINDA_SMALL_NUMBER : K) (f : MMFeature K) :
    Nat → Nat → List K → Option (List K)
  | 0, _, p => some p
  | n + 1, i, p =>
    match f.maxes[i]?, f.mins[i]? with
    | some mx, some mn =>
      let delta := mx - mn
      if |delta| < KINDA_SMALL_NUMBER then
        MMFeature._normalize_minmax_loop KINDA_SMALL_NUMBER f n (i + 1) p
      else
        match p[i]? with
        | some pi =>
          MMFeature._normalize_minmax_loop KINDA_SMALL_NUMBER f n (i + 1)
            (p.set i ((pi - mn) / delta))
        | none => none
    | _, _ => none

/-- The loop of `_denormalize_minmax` with `n` iterations left at index `i`. -/
def MMFeature._denormalize_minmax_loop (KINDA_SMALL_NUMBER : K) (f : MMFeature K) :
    Nat → Nat → List K → Option (List K)
  | 0, _, p => some p
  | n + 1, i, p =>
    match f.maxes[i]?, f.mins[i]? with
    | some mx, some mn =>
      let delta := mx - mn
      if |delta| < KINDA_SMALL_NUMBER then
        MMFeature._denormalize_minmax_loop KINDA_SMALL_NUMBER f n (i + 1) p
      else
        match p[i]? with
        | some pi =>
          MMFeature._denormalize_minmax_loop KINDA_SMALL_NUMBER f n (i + 1)
            (p.set i ((pi * delta) + mn))
        | none => none
    | _, _ => none

/-- The loop of `_normalize_standard` with `n` iterations left at index `i`. -/
def MMFeature._normalize_standard_loop (KINDA_SMALL_NUMBER : K) (f : MMFeature K) :
    Nat → Nat → List K → Option (List K)
  | 0, _, p => some p
  | n + 1, i, p =>
    match p[i]?, f.means[i]?, f.std_devs[i]? with
    | some pi, some mean, some sd =>
      MMFeature._normalize_standard_loop KINDA_SMALL_NUMBER f n (i + 1)
        (p.set i ((pi - mean) / (sd + KINDA_SMALL_NUMBER)))
    | _, _, _ => none

/-- The loop of `_denormalize_standard` with `n` iterations left at index `i`. -/
def MMFeature._denormalize_standard_loop (KINDA_SMALL_NUMBER : K) (f : MMFeature K) :
    Nat → Nat → List K → Option (List K)
  | 0, _, p => some p
  | n + 1, i, p =>
    match p[i]?, f.std_devs[i]?, f.means[i]? with
    | some pi, some sd, some mean =>
      MMFeature._denormalize_standard_loop KINDA_SMALL_NUMBER f n (i + 1)
        (p.set i ((pi * (sd + KINDA_SMALL_NUMBER)) + mean))
    | _, _, _ => none

/-- The method `MMFeature::_normalize_minmax`: the buffer after the call, or `none` when
an index outside an array or the buffer is accessed. A null buffer is reported and left
alone. -/
def MMFeature._normalize_minmax (KINDA_SMALL_NUMBER : K) (f : MMFeature K) :
    Buffer K → Option (Buffer K)
  | none => some none
  | some p =>
    (f._normalize_minmax_loop KINDA_SMALL_NUMBER f.dimension_count.toNat 0 p).map some

/-- The method `MMFeature::_denormalize_minmax`. -/
def MMFeature._denormalize_minmax (KINDA_SMALL_NUMBER : K) (f : MMFeature K) :
    Buffer K → Option (Buffer K)
  | none => some none
  | some p =>
    (f._denormalize_minmax_loop KINDA_SMALL_NUMBER f.dimension_count.toNat 0 p).map some

/-- The method `MMFeature::_normalize_standard`. -/
def MMFeature._normalize_standard (KINDA_SMALL_NUMBER : K) (f : MMFeature K) :
    Buffer K → Option (Buffer K)
  | none => some none
  | some p =>
    (f._normalize_standard_loop KINDA_SMALL_NUMBER f.dimension_count.toNat 0 p).map some

/-- The method `MMFeature::_denormalize_standard`; `ERR_FAIL_COND` returns without
touching the buffer when the length of `std_devs` is not the dimension count. -/
def MMFeature._denormalize_standard (KINDA_SMALL_NUMBER : K) (f : MMFeature K) :
    Buffer K → Option (Buffer K)
  | none => some none
  | some p =>
    if (f.std_devs.length : Int) ≠ f.dimension_count then
      some (some p)
    else
      (f._denormalize_standard_loop KINDA_SMALL_NUMBER f.dimension_count.toNat 0 p).map some

/-- The method `MMFeature::normalize`. -/
def MMFeature.normalize (KINDA_SMALL_NUMBER : K) (f : MMFeature K) :
    Buffer K → Option (Buffer K)
  | none => some none
  | some p =>
    match f.normalization_mode with
    | NormalizationMode.Standard => f._normalize_standard KINDA_SMALL_NUMBER (some p)
    | NormalizationMode.MinMax => f._normalize_minmax KINDA_SMALL_NUMBER (some p)
    | NormalizationMode.Raw => some (some p)

/-- The method `MMFeature::denormalize`. -/
def MMFeature.denormalize (KINDA_SMALL_NUMBER : K) (f : MMFeature K) :
    Buffer K → Option (Buffer K)
  | none => some none
  | some p =>
    match f.normalization_mode with
    | NormalizationMode.Standard => f._denormalize_standard KINDA_SMALL_NUMBER (some p)
    | NormalizationMode.MinMax => f._denormalize_minmax KINDA_SMALL_NUMBER (some p)
    | NormalizationMode.Raw => some (some p)

end Feature

section FloatingPoint

/-- The power `2 ^ e` for an integer exponent, as a rational. -/
def pow2 (e : Int) : ℚ :=
  if 0 ≤ e then ((2 ^ e.toNat : Nat) : ℚ) else 1 / ((2 ^ (-e).toNat : Nat) : ℚ)

/-- The number of halvings that bring `n` below 2, with `fuel` as recursion bound. -/
def log2_fuel : Nat → Nat → Nat
  | 0, _ => 0
  | fuel + 1, n => if 2 ≤ n then log2_fuel fuel (n / 2) + 1 else 0

/-- The binary logarithm of a natural number, rounded down (0 for 0). -/
def nat_log2 (n : Nat) : Nat := log2_fuel n n

/-- The binary exponent of a positive rational `a`: the integer `e` with
`2 ^ e ≤ a < 2 ^ (e + 1)`. -/
def binade (a : ℚ) : Int :=
  let e0 : Int := (nat_log2 a.num.natAbs : Int) - (nat_log2 a.den : Int)
  if pow2 e0 ≤ a then e0 else e0 - 1

/-- Rounding of a rational to the nearest integer, ties to the even one. -/
def round_nearest_even (q : ℚ) : Int :=
  let f := Rat.floor q
  let r := q - (f : ℚ)
  if r < 1 / 2 then f else if 1 / 2 < r then f + 1 else if f % 2 = 0 then f else f + 1

/-- Rounding of a rational to a binary floating-point format with `p` significand bits
and exponent range `emin .. emax`, in the default mode (to nearest, ties to even),
subnormal numbers included. The result is `none` when the rounded magnitude is beyond
the largest finite number (the operation overflows to an infinity); signed zeros are
not distinguished. -/
def round_float (p : Nat) (emin emax : Int) (q : ℚ) : Option ℚ :=
  if q = 0 then some 0
  else
    let a := |q|
    let e := max (binade a) emin
    let ulp := pow2 (e - ((p : Int) - 1))
    let r := (round_nearest_even (a / ulp) : ℚ) * ulp
    if pow2 (emax + 1) ≤ r then none else some (if q < 0 then -r else r)

/-- Rounding to the 32-bit format of `float`, the type behind `real_t`. -/
def round32 (q : ℚ) : Option ℚ := round_float 24 (-126) 127 q

/-- Rounding to the 64-bit format of `double`, the type of unsuffixed literals and of
every operation with a `double` operand. -/
def round64 (q : ℚ) : Option ℚ := round_float 53 (-1022) 1023 q

/-- A `float` or `double` value: `some q` is the finite number `q`, `none` stands for
an infinity or a NaN. -/
abbrev FloatValue := Option ℚ

/-- Sum of two `float` values. -/
def add32 (a b : FloatValue) : FloatValue :=
  match a, b with
  | some p, some q => round32 (p + q)
  | _, _ => none

/-- Difference of two `float` values. -/
def sub32 (a b : FloatValue) : FloatValue :=
  match a, b with
  | some p, some q => round32 (p - q)
  | _, _ => none

/-- Product of two `float` values. -/
def mul32 (a b : FloatValue) : FloatValue :=
  match a, b with
  | some p, some q => round32 (p * q)
  | _, _ => none

/-- Sum of two `double` values. -/
def add64 (a b : FloatValue) : FloatValue :=
  match a, b with
  | some p, some q => round64 (p + q)
  | _, _ => none

/-- Product of two `double` values. -/
def mul64 (a b : FloatValue) : FloatValue :=
  match a, b with
  | some p, some q => round64 (p * q)
  | _, _ => none

/-- Quotient of two `double` values; a zero divisor gives an infinity or a NaN. -/
def div64 (a b : FloatValue) : FloatValue :=
  match a, b with
  | some p, some q => if q = 0 then none else round64 (p / q)
  | _, _ => none

/-- Conversion of a `double` value to `real_t`. -/
def to32 (a : FloatValue) : FloatValue := a.bind round32

/-- The constant `Ln2` as stored: the `double` literal converted to `real_t`. -/
def Ln2_f32 : FloatValue := to32 (round64 0.69314718056)

/-- The function `fast_negexp` on `float`: the argument is promoted to `double`, every
operation is a `double` operation, and the result is converted to `real_t`. -/
def fast_negexp_f32 (x : FloatValue) : FloatValue :=
  to32 (div64 (round64 1.0)
    (add64 (add64 (add64 (round64 1.0) x) (mul64 (mul64 (round64 0.48) x) x))
      (mul64 (mul64 (mul64 (round64 0.235) x) x) x)))

/-- The function `halflife_to_damping` on `float`: `4.0 * Ln2` is a `double` product,
`halflife + eps` a `float` sum, the quotient a `double` quotient converted to
`real_t`. -/
def halflife_to_damping_f32 (halflife eps : FloatValue) : FloatValue :=
  to32 (div64 (mul64 (round64 4.0) Ln2_f32) (add32 halflife eps))

/-- The scalar `_simple_spring_damper_exact` on `float` values (`real_t` is `float`):
each operation between `real_t` operands is rounded to the 32-bit format, each operation
with a `double` operand to the 64-bit format, and a value stored in a `real_t` is
converted to the 32-bit format. Returns the new `(x, v)`. -/
def _simple_spring_damper_exact_f32 (x v x_goal halflife dt : FloatValue) :
    FloatValue × FloatValue :=
  let y := to32 (div64 (halflife_to_damping_f32 halflife (to32 (round64 1e-5))) (round64 2.0))
  let j0 := sub32 x x_goal
  let j1 := add32 v (mul32 j0 y)
  let eydt := fast_negexp_f32 (mul32 y dt)
  (add32 (mul32 eydt (add32 j0 (mul32 j1 dt))) x_goal,
   mul32 eydt (sub32 v (mul32 (mul32 j1 y) dt)))

end FloatingPoint

section Lemmas

variable {K : Type} [LinearOrderedField K]

@[simp] theorem Vector3.add_x (a b : Vector3 K) : (a + b).x = a.x + b.x := rfl
@[simp] theorem Vector3.add_y (a b : Vector3 K) : (a + b).y = a.y + b.y := rfl
@[simp] theorem Vector3.add_z (a b : Vector3 K) : (a + b).z = a.z + b.z := rfl
@[simp] theorem Vector3.sub_x (a b : Vector3 K) : (a - b).x = a.x - b.x := rfl
@[simp] theorem Vector3.sub_y (a b : Vector3 K) : (a - b).y = a.y - b.y := rfl
@[simp] theorem Vector3.sub_z (a b : Vector3 K) : (a - b).z = a.z - b.z := rfl
@[simp] theorem Vector3.scale_x (a : Vector3 K) (s : K) : (a * s).x = a.x * s := rfl
@[simp] theorem Vector3.scale_y (a : Vector3 K) (s : K) : (a * s).y = a.y * s := rfl
@[simp] theorem Vector3.scale_z (a : Vector3 K) (s : K) : (a * s).z = a.z * s := rfl
@[simp] theorem Vector3.lscale_x (s : K) (a : Vector3 K) : (s * a).x = a.x * s := rfl
@[simp] theorem Vector3.lscale_y (s : K) (a : Vector3 K) : (s * a).y = a.y * s := rfl
@[simp] theorem Vector3.lscale_z (s : K) (a : Vector3 K) : (s * a).z = a.z * s := rfl
@[simp] theorem Vector3.divs_x (a : Vector3 K) (s : K) : (a / s).x = a.x / s := rfl
@[simp] theorem Vector3.divs_y (a : Vector3 K) (s : K) : (a / s).y = a.y / s := rfl
@[simp] theorem Vector3.divs_z (a : Vector3 K) (s : K) : (a / s).z = a.z / s := rfl

/-- The rational approximation of the exponential is exactly one at zero. -/
theorem fast_negexp_zero : fast_negexp (0 : K) = 1 := by
  norm_num [fast_negexp]

/-- A decay step of length zero leaves a vector state unchanged. -/
theorem decay_vec_dt_zero (x v : Vector3 K) (halflife : K) :
    _decay_spring_damper_exact_vec x v halflife 0 = (x, v) := by
  simp only [_decay_spring_damper_exact_vec, mul_zero, fast_negexp_zero]
  refine Prod.ext ?_ ?_ <;> ext <;> simp

end Lemmas

/-- C1: a transition followed by an update with `dt = 0` outputs the input plus the
composed offset `(src + off) - dst` in position and in velocity; with the input equal
to the destination the output is `src + off`, and for `src_x = 0`, `dst_x = 10` and no
prior offset the output position is the input plus `-10`. -/
theorem inertialize_no_pop (src_x src_v dst_x dst_v off_x off_v in_x in_v : Vector3 ℝ)
    (halflife : ℝ) (_h : 0 ≤ halflife) :
    let off := inertialize_transition_vec off_x off_v src_x src_v dst_x dst_v
    let out := inertialize_update_vec off.1 off.2 in_x in_v halflife 0
    (out.1 = in_x + ((src_x + off_x) - dst_x) ∧
      out.2.1 = in_v + ((src_v + off_v) - dst_v)) ∧
    ((in_x = dst_x → out.1 = src_x + off_x) ∧ (in_v = dst_v → out.2.1 = src_v + off_v)) ∧
    (src_x = ⟨0, 0, 0⟩ → dst_x = ⟨10, 10, 10⟩ → off_x = ⟨0, 0, 0⟩ →
      out.1 = in_x + ⟨-10, -10, -10⟩) := by
  intro off out
  have hx : out.1 = in_x + ((src_x + off_x) - dst_x) := by
    simp only [out, off, inertialize_update_vec, inertialize_transition_vec,
      decay_vec_dt_zero]
  have hv : out.2.1 = in_v + ((src_v + off_v) - dst_v) := by
    simp only [out, off, inertialize_update_vec, inertialize_transition_vec,
      decay_vec_dt_zero]
  refine ⟨⟨hx, hv⟩, ?_, ?_⟩
  · constructor
    · intro e1
      rw [hx, e1]
      ext <;> simp
    · intro e2
      rw [hv, e2]
      ext <;> simp
  · intro e1 e2 e3
    rw [hx, e1, e2, e3]
    ext <;> simp

/-- C1 witness: the spec's example, source at the origin, destination at 10. -/
theorem inertialize_no_pop_witness :
    (0 : ℝ) ≤ 1 ∧
    (inertialize_update_vec
      (inertialize_transition_vec (⟨0, 0, 0⟩ : Vector3 ℝ) ⟨0, 0, 0⟩ ⟨0, 0, 0⟩ ⟨0, 0, 0⟩
        ⟨10, 10, 10⟩ ⟨0, 0, 0⟩).1
      (inertialize_transition_vec (⟨0, 0, 0⟩ : Vector3 ℝ) ⟨0, 0, 0⟩ ⟨0, 0, 0⟩ ⟨0, 0, 0⟩
        ⟨10, 10, 10⟩ ⟨0, 0, 0⟩).2
      ⟨10, 10, 10⟩ ⟨0, 0, 0⟩ 1 0).1 = ⟨10, 10, 10⟩ + ⟨-10, -10, -10⟩ :=
  ⟨by norm_num,
   ((inertialize_no_pop ⟨0, 0, 0⟩ ⟨0, 0, 0⟩ ⟨10, 10, 10⟩ ⟨0, 0, 0⟩ ⟨0, 0, 0⟩ ⟨0, 0, 0⟩
      ⟨10, 10, 10⟩ ⟨0, 0, 0⟩ 1 (by norm_num)).2.2) rfl rfl rfl⟩



section QuatLemmas

@[simp] theorem Quaternion.mul_x {K : Type} [LinearOrderedField K] (p q : Quaternion K) :
    (p * q).x = p.w * q.x + p.x * q.w + p.y * q.z - p.z * q.y := rfl
@[simp] theorem Quaternion.mul_y {K : Type} [LinearOrderedField K] (p q : Quaternion K) :
    (p * q).y = p.w * q.y + p.y * q.w + p.z * q.x - p.x * q.z := rfl
@[simp] theorem Quaternion.mul_z {K : Type} [LinearOrderedField K] (p q : Quaternion K) :
    (p * q).z = p.w * q.z + p.z * q.w + p.x * q.y - p.y * q.x := rfl
@[simp] theorem Quaternion.mul_w {K : Type} [LinearOrderedField K] (p q : Quaternion K) :
    (p * q).w = p.w * q.w - p.x * q.x - p.y * q.y - p.z * q.z := rfl
@[simp] theorem Quaternion.neg_x {K : Type} [LinearOrderedField K] (q : Quaternion K) :
    (-q).x = -q.x := rfl
@[simp] theorem Quaternion.neg_y {K : Type} [LinearOrderedField K] (q : Quaternion K) :
    (-q).y = -q.y := rfl
@[simp] theorem Quaternion.neg_z {K : Type} [LinearOrderedField K] (q : Quaternion K) :
    (-q).z = -q.z := rfl
@[simp] theorem Quaternion.neg_w {K : Type} [LinearOrderedField K] (q : Quaternion K) :
    (-q).w = -q.w := rfl

/-- Normalizing a unit quaternion over the reals returns it unchanged. -/
theorem normalized_of_isUnit (q : Quaternion ℝ) (h : q.IsUnit) :
    Quaternion.normalized Real.sqrt q = q := by
  unfold Quaternion.IsUnit at h
  simp only [Quaternion.normalized, h, Real.sqrt_one]
  ext <;> simp

/-- The identity quaternion has unit length. -/
theorem identity_isUnit : (Quaternion.identity : Quaternion ℝ).IsUnit := by
  simp [Quaternion.IsUnit, Quaternion.identity, Quaternion.length_squared]

/-- The scaled angle axis of the identity rotation is the zero vector. -/
theorem to_scaled_angle_axis_identity :
    quat_to_scaled_angle_axis Real.sqrt Real.arccos (Quaternion.identity : Quaternion ℝ) 1e-8
      = ⟨0, 0, 0⟩ := by
  simp only [quat_to_scaled_angle_axis, quat_log, Quaternion.identity, mul_zero, add_zero,
    Real.sqrt_zero]
  rw [if_pos (by norm_num)]
  ext <;> simp

/-- The zero scaled angle axis is the identity rotation. -/
theorem from_scaled_angle_axis_zero :
    quat_from_scaled_angle_axis Real.sqrt Real.cos Real.sin (⟨0, 0, 0⟩ : Vector3 ℝ) 1e-8
      = Quaternion.identity := by
  have e : ((⟨0, 0, 0⟩ : Vector3 ℝ) / (2.0 : ℝ)) = ⟨0, 0, 0⟩ := by ext <;> simp
  simp only [quat_from_scaled_angle_axis, quat_exp, e, mul_zero, add_zero, Real.sqrt_zero]
  rw [if_pos (by norm_num)]
  have u : (⟨0, 0, 0, 1.0⟩ : Quaternion ℝ) = Quaternion.identity := by
    ext <;> norm_num [Quaternion.identity]
  rw [u, normalized_of_isUnit _ identity_isUnit, normalized_of_isUnit _ identity_isUnit]

/-- A quaternion decay step from the identity with zero velocity stays there. -/
theorem decay_quat_identity (halflife dt : ℝ) :
    _decay_spring_damper_exact_quat Real.sqrt Real.cos Real.sin Real.arccos
      Quaternion.identity ⟨0, 0, 0⟩ halflife dt = (Quaternion.identity, ⟨0, 0, 0⟩) := by
  simp only [_decay_spring_damper_exact_quat, to_scaled_angle_axis_identity]
  have e1 : ∀ a b c : ℝ, a * ((⟨0, 0, 0⟩ : Vector3 ℝ) + ((⟨0, 0, 0⟩ : Vector3 ℝ) +
      (⟨0, 0, 0⟩ : Vector3 ℝ) * b) * c) = ⟨0, 0, 0⟩ := by
    intro a b c; ext <;> simp
  have e2 : ∀ a b c : ℝ, a * ((⟨0, 0, 0⟩ : Vector3 ℝ) - ((⟨0, 0, 0⟩ : Vector3 ℝ) +
      (⟨0, 0, 0⟩ : Vector3 ℝ) * b) * b * c) = ⟨0, 0, 0⟩ := by
    intro a b c; ext <;> simp
  rw [e1, e2, from_scaled_angle_axis_zero]

end QuatLemmas

/-- C2: with a zero offset (vector overload) or an identity offset with zero velocity
offset (orientation overload, unit input), `inertialize_update` returns its input
unchanged and leaves the offset where it was, for every halflife and timestep. -/
theorem inertialize_update_pass_through (halflife dt : ℝ) (_hh : 0 ≤ halflife)
    (_hdt : 0 ≤ dt) :
    (∀ in_x in_v : Vector3 ℝ,
      inertialize_update_vec ⟨0, 0, 0⟩ ⟨0, 0, 0⟩ in_x in_v halflife dt
        = (in_x, in_v, ⟨0, 0, 0⟩, ⟨0, 0, 0⟩)) ∧
    (∀ (in_x : Quaternion ℝ) (in_v : Vector3 ℝ), in_x.IsUnit →
      inertialize_update_quat Real.sqrt Real.cos Real.sin Real.arccos
        Quaternion.identity ⟨0, 0, 0⟩ in_x in_v halflife dt
        = (in_x, in_v, Quaternion.identity, ⟨0, 0, 0⟩)) := by
  constructor
  · intro in_x in_v
    simp only [inertialize_update_vec, _decay_spring_damper_exact_vec]
    refine Prod.ext ?_ (Prod.ext ?_ (Prod.ext ?_ ?_)) <;> ext <;> simp
  · intro in_x in_v hu
    simp only [inertialize_update_quat, decay_quat_identity]
    have e : (Quaternion.identity : Quaternion ℝ) * in_x = in_x := by
      ext <;> simp [Quaternion.identity]
    rw [e, normalized_of_isUnit _ hu]
    refine Prod.ext rfl (Prod.ext ?_ rfl)
    ext <;> simp [Quaternion.xform, Quaternion.identity, Vector3.cross]

/-- C2 witness: halflife `1/10`, timestep `1/60`, a half turn about the x axis. -/
theorem inertialize_update_pass_through_witness :
    (0 : ℝ) ≤ 1 / 10 ∧ (0 : ℝ) ≤ 1 / 60 ∧
    inertialize_update_vec (⟨0, 0, 0⟩ : Vector3 ℝ) ⟨0, 0, 0⟩ ⟨1, 2, 3⟩ ⟨4, 5, 6⟩ (1 / 10)
      (1 / 60) = (⟨1, 2, 3⟩, ⟨4, 5, 6⟩, ⟨0, 0, 0⟩, ⟨0, 0, 0⟩) ∧
    inertialize_update_quat Real.sqrt Real.cos Real.sin Real.arccos
      (Quaternion.identity : Quaternion ℝ) ⟨0, 0, 0⟩ ⟨1, 0, 0, 0⟩ ⟨4, 5, 6⟩ (1 / 10) (1 / 60)
      = (⟨1, 0, 0, 0⟩, ⟨4, 5, 6⟩, Quaternion.identity, ⟨0, 0, 0⟩) :=
  ⟨by norm_num, by norm_num,
   (inertialize_update_pass_through (1 / 10) (1 / 60) (by norm_num) (by norm_num)).1
     ⟨1, 2, 3⟩ ⟨4, 5, 6⟩,
   (inertialize_update_pass_through (1 / 10) (1 / 60) (by norm_num) (by norm_num)).2
     ⟨1, 0, 0, 0⟩ ⟨4, 5, 6⟩
     (by simp [Quaternion.IsUnit, Quaternion.length_squared])⟩

section SpringLemmas

variable {K : Type} [LinearOrderedField K]

/-- The scalar decay spring is the scalar simple spring aimed at zero. -/
theorem decay_eq_simple_scalar (x v halflife dt : K) :
    _decay_spring_damper_exact x v halflife dt
      = _simple_spring_damper_exact x v 0 halflife dt := by
  simp [_decay_spring_damper_exact, _simple_spring_damper_exact]

/-- Iterating the decay spring is iterating the simple spring aimed at zero. -/
theorem decay_iterate_eq_simple (halflife dt x v : K) (n : Nat) :
    decay_spring_iterate halflife dt x v n = simple_spring_iterate 0 halflife dt x v n := by
  induction n with
  | zero => rfl
  | succ n ih => simp only [decay_spring_iterate, simple_spring_iterate, ih,
      decay_eq_simple_scalar]

/-- Closed form of `n` simple-spring steps: the displacement and the velocity are the
`n`-th power of the one-step factor times an affine function of `n`. -/
theorem simple_iterate_closed_form (x_goal halflife dt x v : K) (n : Nat) :
    simple_spring_iterate x_goal halflife dt x v n =
      (fast_negexp (halflife_to_damping halflife 1e-5 / 2.0 * dt) ^ n *
          ((x - x_goal) + (n : K) * dt *
            (v + (x - x_goal) * (halflife_to_damping halflife 1e-5 / 2.0))) + x_goal,
       fast_negexp (halflife_to_damping halflife 1e-5 / 2.0 * dt) ^ n *
          (v - (n : K) * dt * (halflife_to_damping halflife 1e-5 / 2.0) *
            (v + (x - x_goal) * (halflife_to_damping halflife 1e-5 / 2.0)))) := by
  induction n with
  | zero => simp [simple_spring_iterate]
  | succ n ih =>
    simp only [simple_spring_iterate, ih, _simple_spring_damper_exact]
    refine Prod.ext ?_ ?_
    · simp only [Nat.cast_succ, pow_succ]; ring
    · simp only [Nat.cast_succ, pow_succ]; ring

/-- The damping rate `y` used by the simple spring is positive for a non-negative
halflife. -/
theorem half_damping_pos (halflife : K) (h : 0 ≤ halflife) :
    0 < halflife_to_damping halflife 1e-5 / 2.0 := by
  have h1 : (0 : K) < halflife + 1e-5 := by
    have : (0 : K) < 1e-5 := by norm_num
    linarith
  have h2 : (0 : K) < 4.0 * Ln2 := by norm_num [Ln2]
  have h3 : (0 : K) < 2.0 := by norm_num
  exact div_pos (div_pos h2 h1) h3

/-- For a positive argument the rational exponential lies strictly between 0 and 1. -/
theorem fast_negexp_pos_lt_one (a : K) (ha : 0 < a) :
    0 < fast_negexp a ∧ fast_negexp a < 1 := by
  have h2 : 0 < a * a := mul_pos ha ha
  have h3 : 0 < a * a * a := mul_pos h2 ha
  have hd : (1 : K) < 1.0 + a + 0.48 * a * a + 0.235 * a * a * a := by
    norm_num
    nlinarith
  unfold fast_negexp
  constructor
  · exact div_pos (by norm_num) (by linarith)
  · rw [div_lt_one (by linarith)]
    norm_num at hd ⊢
    linarith

end SpringLemmas

section RoundTrip

/-- Doubling and then halving a vector returns it. -/
theorem scale_two_div_two (v : Vector3 ℝ) : ((2.0 : ℝ) * v) / (2.0 : ℝ) = v := by
  ext <;> norm_num

/-- Away from the small-angle branch, `quat_exp` undoes `quat_log` exactly on unit
quaternions. -/
theorem quat_exp_log_of_large (q : Quaternion ℝ) (hu : q.IsUnit)
    (hL : ¬ Real.sqrt (q.x * q.x + q.y * q.y + q.z * q.z) < 1e-8) :
    quat_exp Real.sqrt Real.cos Real.sin (quat_log Real.sqrt Real.arccos q 1e-8) 1e-8 = q := by
  have hs0 : 0 ≤ q.x * q.x + q.y * q.y + q.z * q.z :=
    add_nonneg (add_nonneg (mul_self_nonneg _) (mul_self_nonneg _)) (mul_self_nonneg _)
  set L : ℝ := Real.sqrt (q.x * q.x + q.y * q.y + q.z * q.z) with hLdef
  have hLge : (1e-8 : ℝ) ≤ L := not_lt.mp hL
  have hLpos : 0 < L := lt_of_lt_of_le (by norm_num) hLge
  have hL2 : L * L = q.x * q.x + q.y * q.y + q.z * q.z := Real.mul_self_sqrt hs0
  have hw : q.w * q.w = 1 - L * L := by
    have := hu
    unfold Quaternion.IsUnit Quaternion.length_squared at this
    linarith
  have hw1 : -1 ≤ q.w := by nlinarith
  have hw2 : q.w ≤ 1 := by nlinarith
  have hclamp : clampf q.w (-1.0) 1.0 = q.w := by
    unfold clampf
    rw [if_neg (by norm_num; exact hw2), if_neg (by norm_num; exact hw1)]
  set θ : ℝ := Real.arccos q.w with hθdef
  have hsin : Real.sin θ = L := by
    rw [hθdef, Real.sin_arccos]
    have : 1 - q.w ^ 2 = L * L := by rw [pow_two]; linarith
    rw [this, Real.sqrt_mul_self hLpos.le]
  have hcos : Real.cos θ = q.w := Real.cos_arccos hw1 hw2
  have hθ0 : 0 ≤ θ := Real.arccos_nonneg _
  have hθL : L ≤ θ := by
    rw [← hsin]
    exact Real.sin_le hθ0
  have hθpos : 0 < θ := lt_of_lt_of_le hLpos hθL
  have hlog : quat_log Real.sqrt Real.arccos q 1e-8
      = ⟨q.x / L * θ, q.y / L * θ, q.z / L * θ⟩ := by
    unfold quat_log
    simp only [← hLdef, if_neg hL, hclamp, ← hθdef]
    rfl
  have hhalf : Real.sqrt (q.x / L * θ * (q.x / L * θ) + q.y / L * θ * (q.y / L * θ)
      + q.z / L * θ * (q.z / L * θ)) = θ := by
    have : q.x / L * θ * (q.x / L * θ) + q.y / L * θ * (q.y / L * θ)
        + q.z / L * θ * (q.z / L * θ) = θ * θ := by
      have : q.x / L * θ * (q.x / L * θ) + q.y / L * θ * (q.y / L * θ)
          + q.z / L * θ * (q.z / L * θ)
          = (q.x * q.x + q.y * q.y + q.z * q.z) / (L * L) * (θ * θ) := by
        field_simp
        ring
      rw [this, ← hL2, div_self (ne_of_gt (mul_pos hLpos hLpos)), one_mul]
    rw [this, Real.sqrt_mul_self hθ0]
  rw [hlog]
  unfold quat_exp
  simp only [hhalf]
  rw [if_neg (not_lt.mpr (le_trans hLge hθL)), hsin, hcos]
  have e : (⟨L / θ * (q.x / L * θ), L / θ * (q.y / L * θ), L / θ * (q.z / L * θ), q.w⟩ :
      Quaternion ℝ) = q := by
    ext
    · show L / θ * (q.x / L * θ) = q.x
      field_simp
      ring
    · show L / θ * (q.y / L * θ) = q.y
      field_simp
      ring
    · show L / θ * (q.z / L * θ) = q.z
      field_simp
      ring
    · rfl
  rw [e, normalized_of_isUnit q hu]

/-- In the small-angle branch, `quat_exp` after `quat_log` gives the vector part and
a unit scalar part, both scaled to unit length. -/
theorem quat_exp_log_of_small (q : Quaternion ℝ)
    (hL : Real.sqrt (q.x * q.x + q.y * q.y + q.z * q.z) < 1e-8) :
    quat_exp Real.sqrt Real.cos Real.sin (quat_log Real.sqrt Real.arccos q 1e-8) 1e-8
      = Quaternion.normalized Real.sqrt ⟨q.x, q.y, q.z, 1⟩ := by
  have hlog : quat_log Real.sqrt Real.arccos q 1e-8 = ⟨q.x, q.y, q.z⟩ := by
    unfold quat_log
    simp only [if_pos hL]
  rw [hlog]
  unfold quat_exp
  simp only [if_pos hL]
  norm_num

/-- Normalizing a quaternion of non-zero length gives a unit quaternion. -/
theorem normalized_isUnit (q : Quaternion ℝ) (h : 0 < q.length_squared) :
    (Quaternion.normalized Real.sqrt q).IsUnit := by
  have hs : Real.sqrt q.length_squared * Real.sqrt q.length_squared = q.length_squared :=
    Real.mul_self_sqrt h.le
  have hne : Real.sqrt q.length_squared ≠ 0 := (Real.sqrt_pos.mpr h).ne'
  unfold Quaternion.IsUnit
  have : (Quaternion.normalized Real.sqrt q).length_squared
      = q.length_squared / (Real.sqrt q.length_squared * Real.sqrt q.length_squared) := by
    simp only [Quaternion.normalized, Quaternion.length_squared]
    field_simp
  rw [this, hs, div_self h.ne']

end RoundTrip

/-- Real-number bounds behind the small-angle branch: for a tiny squared vector
length `s`, the normalizing factor `t` and a scalar part `w` of the unit quaternion
both lie within `s` of 1 in absolute value. -/
theorem small_angle_scalar_bounds (s t w : ℝ) (hs0 : 0 ≤ s) (htpos : 0 < t)
    (htt : t * t * (s + 1) = 1) (hw : w * w = 1 - s) :
    1 - s ≤ t ∧ t ≤ 1 ∧ (0 ≤ w → 1 - s ≤ w) ∧ (w < 0 → w ≤ -(1 - s)) ∧ -1 ≤ w ∧ w ≤ 1 := by
  have ht1 : t ≤ 1 := by
    by_contra hc
    push_neg at hc
    nlinarith
  have ht2 : 1 - s ≤ t := by
    have h1 : (1 - s) * (s + 1) ≤ t * t * (s + 1) := by rw [htt]; nlinarith
    have h2 : 1 - s ≤ t * t := le_of_mul_le_mul_right h1 (by linarith)
    nlinarith
  have hw1 : w ≤ 1 := by nlinarith
  have hw2 : -1 ≤ w := by nlinarith
  refine ⟨ht2, ht1, ?_, ?_, hw2, hw1⟩
  · intro h0
    nlinarith
  · intro h0
    nlinarith

/-- A real whose square is below `1e-16` is at most `1e-8` in absolute value. -/
theorem abs_le_of_sq_lt_tiny (a s : ℝ) (ha : a * a ≤ s) (hs : s < 1e-16) : |a| ≤ 1e-8 := by
  have h16 : a * a < 1e-16 := lt_of_le_of_lt ha hs
  rw [abs_le]
  norm_num at h16 ⊢
  constructor <;> nlinarith

/-- A tiny component scaled by a factor in `[0, 1]` stays within `1e-5` of itself and
of its negation. -/
theorem small_angle_vector_bounds (a s t : ℝ) (ha : a * a ≤ s) (hs : s < 1e-16)
    (ht0 : 0 ≤ t) (ht1 : t ≤ 1) : |a * t - a| ≤ 1e-5 ∧ |a * t - -a| ≤ 1e-5 := by
  have h1 := abs_le_of_sq_lt_tiny a s ha hs
  constructor
  · have h2 : |t - 1| ≤ 1 := by rw [abs_le]; constructor <;> linarith
    have : a * t - a = a * (t - 1) := by ring
    rw [this, abs_mul]
    calc |a| * |t - 1| ≤ 1e-8 * 1 := mul_le_mul h1 h2 (abs_nonneg _) (by norm_num)
      _ ≤ 1e-5 := by norm_num
  · have h2 : |t + 1| ≤ 2 := by rw [abs_le]; constructor <;> linarith
    have : a * t - -a = a * (t + 1) := by ring
    rw [this, abs_mul]
    calc |a| * |t + 1| ≤ 1e-8 * 2 := mul_le_mul h1 h2 (abs_nonneg _) (by norm_num)
      _ ≤ 1e-5 := by norm_num

/-- C4: converting a unit quaternion to its scaled angle axis and back gives the
quaternion or its negation, within `1e-5` on each of the four components. -/
theorem quat_round_trip (q : Quaternion ℝ) (hu : q.IsUnit) :
    Quaternion.CloseTo 1e-5
      (scaled_angle_axis_round_trip Real.sqrt Real.cos Real.sin Real.arccos q 1e-8) q ∨
    Quaternion.CloseTo 1e-5
      (scaled_angle_axis_round_trip Real.sqrt Real.cos Real.sin Real.arccos q 1e-8) (-q) := by
  have hr : scaled_angle_axis_round_trip Real.sqrt Real.cos Real.sin Real.arccos q 1e-8
      = Quaternion.normalized Real.sqrt
      (quat_exp Real.sqrt Real.cos Real.sin (quat_log Real.sqrt Real.arccos q 1e-8) 1e-8) := by
    simp only [scaled_angle_axis_round_trip, quat_from_scaled_angle_axis,
      quat_to_scaled_angle_axis, scale_two_div_two]
  by_cases hL : Real.sqrt (q.x * q.x + q.y * q.y + q.z * q.z) < 1e-8
  · -- small-angle branch: the result is `(x, y, z, 1)` scaled to unit length
    have hlen : (0 : ℝ) < (⟨q.x, q.y, q.z, 1⟩ : Quaternion ℝ).length_squared := by
      simp only [Quaternion.length_squared]
      nlinarith [mul_self_nonneg q.x, mul_self_nonneg q.y, mul_self_nonneg q.z]
    rw [quat_exp_log_of_small q hL, normalized_of_isUnit _ (normalized_isUnit _ hlen)] at hr
    simp only [Quaternion.normalized, Quaternion.length_squared] at hr
    rw [hr]
    simp only [Quaternion.CloseTo, Quaternion.neg_x, Quaternion.neg_y, Quaternion.neg_z,
      Quaternion.neg_w]
    have hs0 : 0 ≤ q.x * q.x + q.y * q.y + q.z * q.z :=
      add_nonneg (add_nonneg (mul_self_nonneg _) (mul_self_nonneg _)) (mul_self_nonneg _)
    have hs : q.x * q.x + q.y * q.y + q.z * q.z < 1e-16 := by
      have := (Real.sqrt_lt' (by norm_num : (0 : ℝ) < 1e-8)).mp hL
      norm_num at this ⊢
      linarith
    have hxs : q.x * q.x ≤ q.x * q.x + q.y * q.y + q.z * q.z := by
      linarith [mul_self_nonneg q.y, mul_self_nonneg q.z]
    have hys : q.y * q.y ≤ q.x * q.x + q.y * q.y + q.z * q.z := by
      linarith [mul_self_nonneg q.x, mul_self_nonneg q.z]
    have hzs : q.z * q.z ≤ q.x * q.x + q.y * q.y + q.z * q.z := by
      linarith [mul_self_nonneg q.x, mul_self_nonneg q.y]
    have hw : q.w * q.w = 1 - (q.x * q.x + q.y * q.y + q.z * q.z) := by
      have := hu
      unfold Quaternion.IsUnit Quaternion.length_squared at this
      linarith
    generalize q.x * q.x + q.y * q.y + q.z * q.z = s at hs0 hs hxs hys hzs hw ⊢
    have hD : Real.sqrt (s + 1 * 1) * Real.sqrt (s + 1 * 1) = s + 1 := by
      rw [Real.mul_self_sqrt (by linarith)]; ring
    have hDpos : 0 < Real.sqrt (s + 1 * 1) := Real.sqrt_pos.mpr (by linarith)
    have htpos : 0 < 1 / Real.sqrt (s + 1 * 1) := by positivity
    have htt : 1 / Real.sqrt (s + 1 * 1) * (1 / Real.sqrt (s + 1 * 1)) * (s + 1) = 1 := by
      rw [← hD]; field_simp
    generalize 1 / Real.sqrt (s + 1 * 1) = t at htpos htt ⊢
    obtain ⟨ht2, ht1, hwlo, hwhi, _, _⟩ := small_angle_scalar_bounds s t q.w hs0 htpos htt hw
    have hx := small_angle_vector_bounds q.x s t hxs hs htpos.le ht1
    have hy := small_angle_vector_bounds q.y s t hys hs htpos.le ht1
    have hz := small_angle_vector_bounds q.z s t hzs hs htpos.le ht1
    have hs5 : s ≤ 1e-5 := by
      norm_num at hs ⊢
      linarith
    by_cases hwsign : 0 ≤ q.w
    · left
      have := hwlo hwsign
      refine ⟨?_, hx.1, hy.1, hz.1⟩
      rw [abs_le]
      constructor <;> linarith
    · right
      have := hwhi (not_le.mp hwsign)
      refine ⟨?_, hx.2, hy.2, hz.2⟩
      rw [abs_le]
      constructor <;> linarith
  · -- exact branch: the round trip returns `q` itself
    left
    rw [quat_exp_log_of_large q hu hL, normalized_of_isUnit q hu] at hr
    rw [hr]
    simp only [Quaternion.CloseTo, sub_self, abs_zero]
    norm_num

/-- C4 witness: a half turn about the x axis. -/
theorem quat_round_trip_witness :
    (⟨1, 0, 0, 0⟩ : Quaternion ℝ).IsUnit ∧
    (Quaternion.CloseTo 1e-5
      (scaled_angle_axis_round_trip Real.sqrt Real.cos Real.sin Real.arccos
        (⟨1, 0, 0, 0⟩ : Quaternion ℝ) 1e-8) ⟨1, 0, 0, 0⟩ ∨
    Quaternion.CloseTo 1e-5
      (scaled_angle_axis_round_trip Real.sqrt Real.cos Real.sin Real.arccos
        (⟨1, 0, 0, 0⟩ : Quaternion ℝ) 1e-8) (-⟨1, 0, 0, 0⟩)) :=
  have hu : (⟨1, 0, 0, 0⟩ : Quaternion ℝ).IsUnit := by
    norm_num [Quaternion.IsUnit, Quaternion.length_squared]
  ⟨hu, quat_round_trip ⟨1, 0, 0, 0⟩ hu⟩

section DecayVersusSimple

/-- Multiplying by the inverse of the identity on the right changes nothing. -/
theorem mul_identity_inverse (x : Quaternion ℝ) :
    x * (Quaternion.identity : Quaternion ℝ).inverse = x := by
  ext <;> simp [Quaternion.identity, Quaternion.inverse]

/-- Multiplying by the identity on the right changes nothing. -/
theorem mul_identity (x : Quaternion ℝ) : x * (Quaternion.identity : Quaternion ℝ) = x := by
  ext <;> simp [Quaternion.identity]

/-- The function `quat_abs` keeps a unit quaternion with non-negative scalar part. -/
theorem quat_abs_of_nonneg (x : Quaternion ℝ) (hu : x.IsUnit) (hw : 0 ≤ x.w) :
    quat_abs Real.sqrt x = x := by
  unfold quat_abs
  rw [if_neg (by norm_num; exact hw), normalized_of_isUnit x hu]

/-- The function `quat_abs` negates a unit quaternion with negative scalar part. -/
theorem quat_abs_of_neg (x : Quaternion ℝ) (hu : x.IsUnit) (hw : x.w < 0) :
    quat_abs Real.sqrt x = -x := by
  have hu2 : (-x).IsUnit := by
    unfold Quaternion.IsUnit Quaternion.length_squared at hu ⊢
    simp only [Quaternion.neg_x, Quaternion.neg_y, Quaternion.neg_z, Quaternion.neg_w]
    linarith
  unfold quat_abs
  rw [if_pos (by norm_num; exact hw), normalized_of_isUnit _ hu2]

/-- The logarithm of a quaternion whose vector part lies on the x axis, away from the
small-angle branch. -/
theorem quat_log_x_axis (a w : ℝ) (ha : 1e-8 ≤ |a|) (hw1 : -1 ≤ w) (hw2 : w ≤ 1) :
    (quat_log Real.sqrt Real.arccos ⟨a, 0, 0, w⟩ 1e-8).x = a / |a| * Real.arccos w := by
  have hL : Real.sqrt (a * a + 0 * 0 + 0 * 0) = |a| := by
    rw [mul_zero, add_zero, add_zero, Real.sqrt_mul_self_eq_abs]
  have hclamp : clampf w (-1.0) 1.0 = w := by
    unfold clampf
    rw [if_neg (by norm_num; exact hw2), if_neg (by norm_num; exact hw1)]
  unfold quat_log
  simp only [hL, if_neg (not_lt.mpr ha), hclamp]
  rfl

/-- The x component of the velocity returned by the quaternion decay spring. -/
theorem decay_quat_velocity_x (x : Quaternion ℝ) (v : Vector3 ℝ) (halflife dt : ℝ) :
    (_decay_spring_damper_exact_quat Real.sqrt Real.cos Real.sin Real.arccos x v halflife dt).2.x
      = (v.x - (v.x + (quat_log Real.sqrt Real.arccos x 1e-8).x * 2.0 *
          (halflife_to_damping halflife 1e-5 / 2.0)) *
          (halflife_to_damping halflife 1e-5 / 2.0) * dt) *
        fast_negexp (halflife_to_damping halflife 1e-5 / 2.0 * dt) := rfl

/-- The x component of the velocity returned by the quaternion simple spring. -/
theorem simple_quat_velocity_x (x : Quaternion ℝ) (v : Vector3 ℝ) (g : Quaternion ℝ)
    (halflife dt : ℝ) :
    (_simple_spring_damper_exact_quat Real.sqrt Real.cos Real.sin Real.arccos x v g
        halflife dt).2.x
      = (v.x - (v.x + (quat_log Real.sqrt Real.arccos (quat_abs Real.sqrt (x * g.inverse))
          1e-8).x * 2.0 * (halflife_to_damping halflife 1e-5 / 2.0)) *
          (halflife_to_damping halflife 1e-5 / 2.0) * dt) *
        fast_negexp (halflife_to_damping halflife 1e-5 / 2.0 * dt) := rfl

end DecayVersusSimple

/-- C5 (as stated, refuted): for the unit quaternion `(3/5, 0, 0; w = -4/5)` with zero
angular velocity, halflife 1 and timestep 1, the orientation decay spring and the
orientation simple spring aimed at the identity return different states. -/
theorem decay_quat_ne_simple_identity :
    (⟨3 / 5, 0, 0, -4 / 5⟩ : Quaternion ℝ).IsUnit ∧
    _decay_spring_damper_exact_quat Real.sqrt Real.cos Real.sin Real.arccos
        ⟨3 / 5, 0, 0, -4 / 5⟩ ⟨0, 0, 0⟩ 1 1
      ≠ _simple_spring_damper_exact_quat Real.sqrt Real.cos Real.sin Real.arccos
        ⟨3 / 5, 0, 0, -4 / 5⟩ ⟨0, 0, 0⟩ Quaternion.identity 1 1 := by
  have hu : (⟨3 / 5, 0, 0, -4 / 5⟩ : Quaternion ℝ).IsUnit := by
    norm_num [Quaternion.IsUnit, Quaternion.length_squared]
  refine ⟨hu, fun h => ?_⟩
  have hx := congrArg (fun p : Quaternion ℝ × Vector3 ℝ => p.2.x) h
  simp only [decay_quat_velocity_x, simple_quat_velocity_x, mul_identity_inverse] at hx
  rw [quat_abs_of_neg _ hu (by norm_num)] at hx
  have hneg : (-(⟨3 / 5, 0, 0, -4 / 5⟩ : Quaternion ℝ)) = ⟨-(3 / 5), 0, 0, 4 / 5⟩ := by
    ext <;> norm_num
  rw [hneg, quat_log_x_axis _ _ (by norm_num [abs_of_pos]) (by norm_num) (by norm_num),
    quat_log_x_axis _ _ (by norm_num [abs_of_pos]) (by norm_num) (by norm_num)] at hx
  have hy := half_damping_pos (1 : ℝ) (by norm_num)
  have he := (fast_negexp_pos_lt_one _ (mul_pos hy (by norm_num : (0 : ℝ) < 1))).1
  have h1 : 0 < Real.arccos (-4 / 5) := Real.arccos_pos.mpr (by norm_num)
  have h2 : 0 < Real.arccos (4 / 5) := Real.arccos_pos.mpr (by norm_num)
  have e1 : (3 / 5 : ℝ) / |3 / 5| = 1 := by norm_num [abs_of_pos]
  have e2 : (-(3 / 5) : ℝ) / |(-(3 / 5) : ℝ)| = -1 := by
    rw [abs_neg]; norm_num [abs_of_pos]
  rw [e1, e2] at hx
  set y : ℝ := halflife_to_damping 1 1e-5 / 2.0
  set e : ℝ := fast_negexp (y * 1)
  have hyy : 0 < y * y := mul_pos hy hy
  have hl : (0 - (0 + 1 * Real.arccos (-4 / 5) * 2.0 * y) * y * 1) * e < 0 := by
    apply mul_neg_of_neg_of_pos _ he
    norm_num
    nlinarith [mul_pos h1 hyy]
  have hr : 0 < (0 - (0 + -1 * Real.arccos (4 / 5) * 2.0 * y) * y * 1) * e := by
    apply mul_pos _ he
    norm_num
    nlinarith [mul_pos h2 hyy]
  linarith

/-- C5 (amended): the decay spring returns the same state as the simple spring aimed at
zero (scalar), at the zero vector (`Vector3`), and at the identity quaternion
(orientation) for a unit quaternion whose scalar part is not negative. -/
theorem decay_is_simple_with_rest_goal (q : Quaternion ℝ) (hu : q.IsUnit) (hw : 0 ≤ q.w) :
    (∀ x v halflife dt : ℝ,
      _decay_spring_damper_exact x v halflife dt
        = _simple_spring_damper_exact x v 0 halflife dt) ∧
    (∀ (x v : Vector3 ℝ) (halflife dt : ℝ),
      _decay_spring_damper_exact_vec x v halflife dt
        = _simple_spring_damper_exact_vec x v ⟨0, 0, 0⟩ halflife dt) ∧
    (∀ (v : Vector3 ℝ) (halflife dt : ℝ),
      _decay_spring_damper_exact_quat Real.sqrt Real.cos Real.sin Real.arccos q v halflife dt
        = _simple_spring_damper_exact_quat Real.sqrt Real.cos Real.sin Real.arccos q v
            Quaternion.identity halflife dt) := by
  refine ⟨fun x v halflife dt => decay_eq_simple_scalar x v halflife dt, ?_, ?_⟩
  · intro x v halflife dt
    simp only [_decay_spring_damper_exact_vec, _simple_spring_damper_exact_vec]
    refine Prod.ext ?_ ?_ <;> ext <;> simp
  · intro v halflife dt
    simp only [_decay_spring_damper_exact_quat, _simple_spring_damper_exact_quat,
      mul_identity_inverse, quat_abs_of_nonneg q hu hw, mul_identity]

/-- C5 witness: the amended statement at the unit quaternion `(3/5, 0, 0; w = 4/5)`. -/
theorem decay_is_simple_with_rest_goal_witness :
    (⟨3 / 5, 0, 0, 4 / 5⟩ : Quaternion ℝ).IsUnit ∧
    (0 : ℝ) ≤ (⟨3 / 5, 0, 0, 4 / 5⟩ : Quaternion ℝ).w ∧
    _decay_spring_damper_exact_quat Real.sqrt Real.cos Real.sin Real.arccos
        (⟨3 / 5, 0, 0, 4 / 5⟩ : Quaternion ℝ) ⟨0, 0, 0⟩ 1 1
      = _simple_spring_damper_exact_quat Real.sqrt Real.cos Real.sin Real.arccos
        ⟨3 / 5, 0, 0, 4 / 5⟩ ⟨0, 0, 0⟩ Quaternion.identity 1 1 :=
  have hu : (⟨3 / 5, 0, 0, 4 / 5⟩ : Quaternion ℝ).IsUnit := by
    norm_num [Quaternion.IsUnit, Quaternion.length_squared]
  have hw : (0 : ℝ) ≤ (⟨3 / 5, 0, 0, 4 / 5⟩ : Quaternion ℝ).w := by norm_num
  ⟨hu, hw, (decay_is_simple_with_rest_goal _ hu hw).2.2 ⟨0, 0, 0⟩ 1 1⟩

section DispatchLemmas

/-- The adapter's result has two entries exactly when one of its three type tests
passes; the third test looks at the types of `x` and `v` only. -/
theorem simple_dispatch_length (sqrt cos sin acos : ℝ → ℝ) (x v x_goal : Variant ℝ)
    (halflife dt : ℝ) :
    (simple_spring_damper_exact sqrt cos sin acos x v x_goal halflife dt).length =
      if (x.get_type = VariantType.VECTOR3 ∧ v.get_type = VariantType.VECTOR3 ∧
            x_goal.get_type = VariantType.VECTOR3) ∨
          (x.get_type = VariantType.QUATERNION ∧ v.get_type = VariantType.VECTOR3 ∧
            x_goal.get_type = VariantType.QUATERNION) ∨
          (x.get_type = VariantType.FLOAT ∧ v.get_type = VariantType.FLOAT) then 2 else 0 := by
  unfold simple_spring_damper_exact
  cases x <;> cases v <;> cases x_goal <;> simp [Variant.get_type]

end DispatchLemmas

/-- C6 (failing input): called with a float value, a float velocity and a `Vector3`
goal, the adapter does not return an empty result: it runs the scalar spring with the
goal converted to a number (zero) and returns the two floats. -/
theorem simple_dispatch_float_float_vector3 :
    simple_spring_damper_exact Real.sqrt Real.cos Real.sin Real.arccos
        (Variant.FLOAT (1 : ℝ)) (Variant.FLOAT 0) (Variant.VECTOR3 ⟨1, 2, 3⟩) 1 1
      = [Variant.FLOAT (_simple_spring_damper_exact (1 : ℝ) 0 0 1 1).1,
         Variant.FLOAT (_simple_spring_damper_exact (1 : ℝ) 0 0 1 1).2] ∧
    simple_spring_damper_exact Real.sqrt Real.cos Real.sin Real.arccos
        (Variant.FLOAT (1 : ℝ)) (Variant.FLOAT 0) (Variant.VECTOR3 ⟨1, 2, 3⟩) 1 1 ≠ [] := by
  have h : simple_spring_damper_exact Real.sqrt Real.cos Real.sin Real.arccos
        (Variant.FLOAT (1 : ℝ)) (Variant.FLOAT 0) (Variant.VECTOR3 ⟨1, 2, 3⟩) 1 1
      = [Variant.FLOAT (_simple_spring_damper_exact (1 : ℝ) 0 0 1 1).1,
         Variant.FLOAT (_simple_spring_damper_exact (1 : ℝ) 0 0 1 1).2] := by
    simp [simple_spring_damper_exact, Variant.get_type, Variant.to_real]
  exact ⟨h, by rw [h]; exact List.cons_ne_nil _ _⟩

section CriticalLemmas

/-- When the guard of the first branch holds, the general solver returns what that
branch computes. -/
theorem spring_damper_exact_of_guard (exp sqrt atan cos sin : ℝ → ℝ)
    (x v x_goal v_goal damping_ratio halflife dt eps : ℝ)
    (h : |damping_ratio_to_stiffness damping_ratio (halflife_to_damping halflife 1e-5) -
      halflife_to_damping halflife 1e-5 * halflife_to_damping halflife 1e-5 / 4.0| < eps) :
    _spring_damper_exact exp sqrt atan cos sin x v x_goal v_goal damping_ratio halflife dt eps
      = spring_damper_exact_critical_branch exp x v x_goal v_goal damping_ratio halflife dt
          eps := by
  unfold _spring_damper_exact spring_damper_exact_critical_branch
  simp only [if_pos h]

/-- At damping ratio 1 the stiffness is exactly the critical one, `d * d / 4`. -/
theorem stiffness_at_ratio_one (d : ℝ) :
    damping_ratio_to_stiffness 1 d - d * d / 4.0 = 0 := by
  unfold damping_ratio_to_stiffness square
  ring

/-- At damping ratio 1 the general solver takes its critically damped branch. -/
theorem spring_damper_exact_ratio_one (exp sqrt atan cos sin : ℝ → ℝ)
    (x v x_goal v_goal halflife dt : ℝ) :
    _spring_damper_exact exp sqrt atan cos sin x v x_goal v_goal 1 halflife dt 1e-5
      = spring_damper_exact_critical_branch exp x v x_goal v_goal 1 halflife dt 1e-5 := by
  apply spring_damper_exact_of_guard
  rw [stiffness_at_ratio_one, abs_zero]
  norm_num

end CriticalLemmas

/-- C7: at damping ratio 1, a step of `dt1` followed by a step of `dt2` returns the same
position and velocity as one step of `dt1 + dt2`. -/
theorem spring_damper_exact_critical_semigroup (x v x_goal v_goal halflife dt1 dt2 : ℝ)
    (_hh : 0 ≤ halflife) (_h1 : 0 ≤ dt1) (_h2 : 0 ≤ dt2) :
    _spring_damper_exact Real.exp Real.sqrt Real.arctan Real.cos Real.sin
        (_spring_damper_exact Real.exp Real.sqrt Real.arctan Real.cos Real.sin
          x v x_goal v_goal 1 halflife dt1 1e-5).1
        (_spring_damper_exact Real.exp Real.sqrt Real.arctan Real.cos Real.sin
          x v x_goal v_goal 1 halflife dt1 1e-5).2
        x_goal v_goal 1 halflife dt2 1e-5
      = _spring_damper_exact Real.exp Real.sqrt Real.arctan Real.cos Real.sin
          x v x_goal v_goal 1 halflife (dt1 + dt2) 1e-5 := by
  simp only [spring_damper_exact_ratio_one, spring_damper_exact_critical_branch]
  have he : Real.exp (-(halflife_to_damping halflife 1e-5 / 2.0) * (dt1 + dt2))
      = Real.exp (-(halflife_to_damping halflife 1e-5 / 2.0) * dt1) *
        Real.exp (-(halflife_to_damping halflife 1e-5 / 2.0) * dt2) := by
    rw [← Real.exp_add]
    congr 1
    ring
  rw [he]
  generalize Real.exp (-(halflife_to_damping halflife 1e-5 / 2.0) * dt1) = E1
  generalize Real.exp (-(halflife_to_damping halflife 1e-5 / 2.0) * dt2) = E2
  generalize halflife_to_damping halflife 1e-5 * v_goal /
    (damping_ratio_to_stiffness 1 (halflife_to_damping halflife 1e-5) + 1e-5) = c0
  generalize halflife_to_damping halflife 1e-5 / 2.0 = y
  refine Prod.ext ?_ ?_
  · ring
  · ring

/-- C7 witness: halflife `1/10`, two frames of `1/60` against one step of `1/60 + 1/60`. -/
theorem spring_damper_exact_critical_semigroup_witness :
    (0 : ℝ) ≤ 1 / 10 ∧ (0 : ℝ) ≤ 1 / 60 ∧
    _spring_damper_exact Real.exp Real.sqrt Real.arctan Real.cos Real.sin
        (_spring_damper_exact Real.exp Real.sqrt Real.arctan Real.cos Real.sin
          0 0 1 2 1 (1 / 10) (1 / 60) 1e-5).1
        (_spring_damper_exact Real.exp Real.sqrt Real.arctan Real.cos Real.sin
          0 0 1 2 1 (1 / 10) (1 / 60) 1e-5).2
        1 2 1 (1 / 10) (1 / 60) 1e-5
      = _spring_damper_exact Real.exp Real.sqrt Real.arctan Real.cos Real.sin
          0 0 1 2 1 (1 / 10) (1 / 60 + 1 / 60) 1e-5 :=
  ⟨by norm_num, by norm_num,
   spring_damper_exact_critical_semigroup 0 0 1 2 (1 / 10) (1 / 60) (1 / 60) (by norm_num)
     (by norm_num) (by norm_num)⟩

section ContinuityLemmas

/-- The stiffness is a continuous function of the damping ratio at 1. -/
theorem stiffness_continuousAt_one (d : ℝ) :
    ContinuousAt (fun r : ℝ => damping_ratio_to_stiffness r d) 1 := by
  unfold damping_ratio_to_stiffness square
  have h : ContinuousAt (fun r : ℝ => d / (r * 2.0)) 1 :=
    continuousAt_const.div (continuousAt_id.mul continuousAt_const) (by norm_num)
  exact h.mul h

/-- The critically damped branch is a continuous function of the damping ratio at 1. -/
theorem critical_branch_continuousAt_one (x v x_goal v_goal halflife dt : ℝ) :
    ContinuousAt (fun r : ℝ => spring_damper_exact_critical_branch Real.exp x v x_goal
      v_goal r halflife dt 1e-5) 1 := by
  have hs := stiffness_continuousAt_one (halflife_to_damping halflife 1e-5)
  have hpos : damping_ratio_to_stiffness 1 (halflife_to_damping halflife 1e-5) + 1e-5 ≠ 0 := by
    have h0 : 0 ≤ damping_ratio_to_stiffness 1 (halflife_to_damping halflife 1e-5) := by
      unfold damping_ratio_to_stiffness square
      exact mul_self_nonneg _
    have : (0 : ℝ) < 1e-5 := by norm_num
    linarith
  have hc : ContinuousAt (fun r : ℝ => x_goal + halflife_to_damping halflife 1e-5 * v_goal /
      (damping_ratio_to_stiffness r (halflife_to_damping halflife 1e-5) + 1e-5)) 1 :=
    continuousAt_const.add (continuousAt_const.div (hs.add continuousAt_const) hpos)
  unfold spring_damper_exact_critical_branch
  simp only
  refine ContinuousAt.prod ?_ ?_
  · exact ((((continuousAt_const.sub hc).mul continuousAt_const).add
      ((continuousAt_const.mul (continuousAt_const.add
        ((continuousAt_const.sub hc).mul continuousAt_const))).mul continuousAt_const)).add hc)
  · exact ((((continuousAt_const.mul (continuousAt_const.sub hc)).mul continuousAt_const).sub
      ((continuousAt_const.mul (continuousAt_const.add
        ((continuousAt_const.sub hc).mul continuousAt_const))).mul continuousAt_const)).add
      ((continuousAt_const.add ((continuousAt_const.sub hc).mul continuousAt_const)).mul
        continuousAt_const))

/-- Near damping ratio 1 the general solver is its critically damped branch, so it is
continuous in the damping ratio there. -/
theorem spring_damper_exact_continuousAt_one (x v x_goal v_goal halflife dt : ℝ) :
    ContinuousAt (fun r : ℝ => _spring_damper_exact Real.exp Real.sqrt Real.arctan Real.cos
      Real.sin x v x_goal v_goal r halflife dt 1e-5) 1 := by
  have hs := stiffness_continuousAt_one (halflife_to_damping halflife 1e-5)
  have hg : ContinuousAt (fun r : ℝ =>
      |damping_ratio_to_stiffness r (halflife_to_damping halflife 1e-5) -
        halflife_to_damping halflife 1e-5 * halflife_to_damping halflife 1e-5 / 4.0|) 1 :=
    (hs.sub continuousAt_const).abs
  have hev : ∀ᶠ r in nhds (1 : ℝ),
      |damping_ratio_to_stiffness r (halflife_to_damping halflife 1e-5) -
        halflife_to_damping halflife 1e-5 * halflife_to_damping halflife 1e-5 / 4.0|
        < (1e-5 : ℝ) := by
    refine Filter.Tendsto.eventually_lt_const ?_ hg.tendsto
    rw [stiffness_at_ratio_one, abs_zero]
    norm_num
  refine (critical_branch_continuousAt_one x v x_goal v_goal halflife dt).congr ?_
  filter_upwards [hev] with r hr
  exact (spring_damper_exact_of_guard _ _ _ _ _ _ _ _ _ _ _ _ _ hr).symm

end ContinuityLemmas

/-- C9: from `x = 0, v = 0, xi = 0` with goal 1, halflife `1/10`, timestep `1/60` and
apprehension 2, sixty calls of the timed spring, call `k` passing the remaining time
`1 - k/60`, end with `x` within `0.05` of 1 (exact rational arithmetic). -/
theorem timed_spring_reaches_goal :
    |(timed_spring_run (0 : ℚ) 0 0 1 (1 / 10) (1 / 60) 2 (fun k => 1 - (k : ℚ) / 60) 60).1 - 1|
      ≤ 0.05 := by
  decide!

section RateLemmas

/-- On `[0, 1.4]` the denominator of the rational exponential dominates
`exp (0.9 * a)`. -/
theorem exp_le_fast_negexp_denominator (a : ℝ) (h0 : 0 ≤ a) (h1 : a ≤ 1.4) :
    Real.exp (0.9 * a) ≤ 1.0 + a + 0.48 * a * a + 0.235 * a * a * a := by
  have hx0 : (0 : ℝ) ≤ 0.45 * a := by positivity
  have hx1 : 0.45 * a ≤ 1 := by norm_num at h1 ⊢; linarith
  have hb := Real.exp_bound' hx0 hx1 (show 0 < 4 by norm_num)
  simp only [Finset.sum_range_succ, Finset.sum_range_zero, Nat.factorial] at hb
  norm_num at h1
  have h2 : 0 ≤ a * a := mul_nonneg h0 h0
  have h3 : 0 ≤ a * a * a := mul_nonneg h2 h0
  have h4 : a * a * a * a ≤ a * a * a * (7 / 5) := mul_le_mul_of_nonneg_left h1 h3
  -- a cubic bound for `exp (0.45 * a)`
  have hq : Real.exp (0.45 * a) ≤ 1 + 0.45 * a + 0.10125 * (a * a) + 0.0182 * (a * a * a) := by
    refine le_trans hb ?_
    norm_num
    nlinarith
  have hsplit : Real.exp (0.9 * a) = Real.exp (0.45 * a) * Real.exp (0.45 * a) := by
    rw [← Real.exp_add]; congr 1; ring
  have hqpos : 0 ≤ 1 + 0.45 * a + 0.10125 * (a * a) + 0.0182 * (a * a * a) := by positivity
  have hsq : Real.exp (0.45 * a) * Real.exp (0.45 * a)
      ≤ (1 + 0.45 * a + 0.10125 * (a * a) + 0.0182 * (a * a * a)) *
        (1 + 0.45 * a + 0.10125 * (a * a) + 0.0182 * (a * a * a)) :=
    mul_le_mul hq hq (Real.exp_pos _).le hqpos
  rw [hsplit]
  refine le_trans hsq ?_
  have h5 : a * a * a * (a * a) ≤ a * a * a * (49 / 25) := by
    apply mul_le_mul_of_nonneg_left _ h3
    nlinarith
  have h6 : a * a * a * (a * a * a) ≤ a * a * a * (343 / 125) := by
    apply mul_le_mul_of_nonneg_left _ h3
    nlinarith
  norm_num
  nlinarith

/-- For `T ≥ 13.5`, `exp (0.9 * T)` exceeds `10^4 * (1 + T)`. -/
theorem exp_dominates_linear (T : ℝ) (hT : 13.5 ≤ T) :
    1e4 * (1 + T) < Real.exp (0.9 * T) := by
  have h12 : (2.718 : ℝ) ^ 12 < Real.exp 12 := by
    have h1 : (2.718 : ℝ) < Real.exp 1 := lt_trans (by norm_num) Real.exp_one_gt_d9
    have h2 : Real.exp 12 = Real.exp 1 ^ 12 := by
      rw [← Real.exp_nat_mul]; norm_num
    rw [h2]
    exact pow_lt_pow_left₀ h1 (by norm_num) (by norm_num)
  have hsplit : Real.exp (0.9 * T) = Real.exp 12 * Real.exp (0.9 * T - 12) := by
    rw [← Real.exp_add]; congr 1; ring
  have hlin : 0.9 * T - 12 + 1 ≤ Real.exp (0.9 * T - 12) := Real.add_one_le_exp _
  have hpos : (0 : ℝ) < 0.9 * T - 12 + 1 := by norm_num at hT ⊢; linarith
  rw [hsplit]
  have hbig : (1.62e5 : ℝ) < (2.718 : ℝ) ^ 12 := by norm_num
  calc 1e4 * (1 + T) < 1.62e5 * (0.9 * T - 12 + 1) := by norm_num at hT ⊢; linarith
    _ ≤ Real.exp 12 * (0.9 * T - 12 + 1) :=
        mul_le_mul_of_nonneg_right (le_of_lt (lt_trans hbig h12)) hpos.le
    _ ≤ Real.exp 12 * Real.exp (0.9 * T - 12) :=
        mul_le_mul_of_nonneg_left hlin (Real.exp_pos _).le

/-- The rate bound for small arguments: once `a ≤ 1.4` and `n * a ≥ 13.5`, the `n`-th
power of the denominator of the rational exponential exceeds `10^4 * (1 + n * a)`. -/
theorem rate_bound_small_arg (a : ℝ) (n : ℕ) (h0 : 0 < a) (h1 : a ≤ 1.4)
    (hT : 13.5 ≤ (n : ℝ) * a) :
    1e4 * (1 + (n : ℝ) * a) < (1.0 + a + 0.48 * a * a + 0.235 * a * a * a) ^ n := by
  have hf := exp_le_fast_negexp_denominator a h0.le h1
  have hexp : Real.exp (0.9 * ((n : ℝ) * a)) = Real.exp (0.9 * a) ^ n := by
    rw [← Real.exp_nat_mul]; congr 1; ring
  have hpow : Real.exp (0.9 * a) ^ n ≤ (1.0 + a + 0.48 * a * a + 0.235 * a * a * a) ^ n :=
    pow_le_pow_left₀ (Real.exp_pos _).le hf n
  have hdom := exp_dominates_linear _ hT
  rw [hexp] at hdom
  exact lt_of_lt_of_le hdom hpow

/-- The rate bound on the denominator gives the bound on the one-step factor:
`fast_negexp a ^ n * (1 + n * a) < 10^-4`. -/
theorem fast_negexp_pow_small (a : ℝ) (n : ℕ) (h0 : 0 ≤ a)
    (hb : 1e4 * (1 + (n : ℝ) * a) < (1.0 + a + 0.48 * a * a + 0.235 * a * a * a) ^ n) :
    fast_negexp a ^ n * (1 + (n : ℝ) * a) < 1e-4 := by
  have hDpos : (0 : ℝ) < (1.0 + a + 0.48 * a * a + 0.235 * a * a * a) ^ n := by
    have : (0 : ℝ) < 1.0 + a + 0.48 * a * a + 0.235 * a * a * a := by positivity
    exact pow_pos this n
  have he : fast_negexp a ^ n = 1 / (1.0 + a + 0.48 * a * a + 0.235 * a * a * a) ^ n := by
    unfold fast_negexp
    rw [div_pow]
    norm_num
  rw [he, div_mul_eq_mul_div, one_mul, div_lt_iff₀ hDpos]
  norm_num at hb ⊢
  linarith

/-- Above `1.4` the denominator of the rational exponential grows at least in proportion
to its argument. -/
theorem fast_negexp_denominator_ratio (a0 a : ℝ) (h0 : 1.4 ≤ a0) (h1 : a0 ≤ a) :
    (1.0 + a0 + 0.48 * a0 * a0 + 0.235 * a0 * a0 * a0) * a
      ≤ (1.0 + a + 0.48 * a * a + 0.235 * a * a * a) * a0 := by
  norm_num at h0 ⊢
  have ha : (7 / 5 : ℝ) ≤ a := le_trans h0 h1
  have hd : 0 ≤ a - a0 := sub_nonneg.mpr h1
  have hprod : (49 / 25 : ℝ) ≤ a * a0 := by nlinarith
  have hsum : (14 / 5 : ℝ) ≤ a + a0 := by linarith
  have hps : (49 / 25 : ℝ) * (14 / 5) ≤ a * a0 * (a + a0) := by
    have h1' : (0 : ℝ) ≤ a * a0 := by linarith
    nlinarith
  have hfac : 0 ≤ 12 / 25 * (a * a0) + 47 / 200 * (a * a0 * (a + a0)) - 1 := by
    norm_num at hps
    linarith
  have := mul_nonneg hd hfac
  nlinarith

/-- Transport of the rate bound from `a0` to a larger argument `a`, for a fixed number
of steps `k ≥ 1`. -/
theorem rate_bound_mono_arg (a0 a : ℝ) (k : ℕ) (hk : 1 ≤ k) (h0 : 1.4 ≤ a0) (h1 : a0 ≤ a)
    (hb : 1e4 * (1 + (k : ℝ) * a0) < (1.0 + a0 + 0.48 * a0 * a0 + 0.235 * a0 * a0 * a0) ^ k) :
    1e4 * (1 + (k : ℝ) * a) < (1.0 + a + 0.48 * a * a + 0.235 * a * a * a) ^ k := by
  have ha0 : (0 : ℝ) < a0 := lt_of_lt_of_le (by norm_num) h0
  have hr1 : 1 ≤ a / a0 := (one_le_div ha0).mpr h1
  have hf0 : (0 : ℝ) < 1.0 + a0 + 0.48 * a0 * a0 + 0.235 * a0 * a0 * a0 := by positivity
  have hratio := fast_negexp_denominator_ratio a0 a h0 h1
  have hfa : (a / a0) * (1.0 + a0 + 0.48 * a0 * a0 + 0.235 * a0 * a0 * a0)
      ≤ 1.0 + a + 0.48 * a * a + 0.235 * a * a * a := by
    rw [div_mul_eq_mul_div, div_le_iff₀ ha0]
    linarith
  have hpow : ((a / a0) * (1.0 + a0 + 0.48 * a0 * a0 + 0.235 * a0 * a0 * a0)) ^ k
      ≤ (1.0 + a + 0.48 * a * a + 0.235 * a * a * a) ^ k :=
    pow_le_pow_left₀ (by positivity) hfa k
  have hrk : a / a0 ≤ (a / a0) ^ k := le_self_pow₀ hr1 (by omega)
  have hf0k : (0 : ℝ) < (1.0 + a0 + 0.48 * a0 * a0 + 0.235 * a0 * a0 * a0) ^ k :=
    pow_pos hf0 k
  have hk0 : (0 : ℝ) ≤ (k : ℝ) * a0 := by positivity
  calc 1e4 * (1 + (k : ℝ) * a)
      ≤ (a / a0) * (1e4 * (1 + (k : ℝ) * a0)) := by
        have : (a / a0) * (1e4 * (1 + (k : ℝ) * a0))
            = 1e4 * (a / a0 + (k : ℝ) * a) := by
          field_simp
          ring
        rw [this]
        have : (0 : ℝ) < 1e4 := by norm_num
        nlinarith
    _ < (a / a0) * (1.0 + a0 + 0.48 * a0 * a0 + 0.235 * a0 * a0 * a0) ^ k :=
        mul_lt_mul_of_pos_left hb (by linarith)
    _ ≤ (a / a0) ^ k * (1.0 + a0 + 0.48 * a0 * a0 + 0.235 * a0 * a0 * a0) ^ k :=
        mul_le_mul_of_nonneg_right hrk hf0k.le
    _ = ((a / a0) * (1.0 + a0 + 0.48 * a0 * a0 + 0.235 * a0 * a0 * a0)) ^ k := by
        rw [mul_pow]
    _ ≤ (1.0 + a + 0.48 * a * a + 0.235 * a * a * a) ^ k := hpow

/-- The rate bound passes from `n` steps to any larger number of steps. -/
theorem rate_bound_mono_steps (a : ℝ) (ha : 0 ≤ a) (n m : ℕ) (hnm : n ≤ m)
    (hb : 1e4 * (1 + (n : ℝ) * a) < (1.0 + a + 0.48 * a * a + 0.235 * a * a * a) ^ n) :
    1e4 * (1 + (m : ℝ) * a) < (1.0 + a + 0.48 * a * a + 0.235 * a * a * a) ^ m := by
  induction m, hnm using Nat.le_induction with
  | base => exact hb
  | succ m _ ih =>
    have h2 : 0 ≤ a * a := mul_nonneg ha ha
    have h3 : 0 ≤ a * a * a := mul_nonneg h2 ha
    have hf : 1 + a ≤ 1.0 + a + 0.48 * a * a + 0.235 * a * a * a := by
      norm_num
      nlinarith
    have hm0 : (0 : ℝ) ≤ (m : ℝ) * a := by positivity
    have hpos : (0 : ℝ) < 1e4 * (1 + (m : ℝ) * a) := by
      have : (0 : ℝ) < 1e4 := by norm_num
      positivity
    rw [pow_succ, Nat.cast_succ]
    calc 1e4 * (1 + ((m : ℝ) + 1) * a)
        ≤ 1e4 * (1 + (m : ℝ) * a) * (1 + a) := by
          have : (0 : ℝ) ≤ (m : ℝ) * a * a := by positivity
          have h4 : (0 : ℝ) < 1e4 := by norm_num
          nlinarith
      _ ≤ 1e4 * (1 + (m : ℝ) * a) * (1.0 + a + 0.48 * a * a + 0.235 * a * a * a) :=
          mul_le_mul_of_nonneg_left hf hpos.le
      _ < (1.0 + a + 0.48 * a * a + 0.235 * a * a * a) ^ m *
            (1.0 + a + 0.48 * a * a + 0.235 * a * a * a) :=
          mul_lt_mul_of_pos_right ih (by linarith)

/-- Numerical rate bounds at the smallest argument allowed for each number of steps. -/
theorem rate_bound_base (k : ℕ) (a0 : ℝ)
    (h : (k = 2 ∧ a0 = 12.6) ∨ (k = 3 ∧ a0 = 8.4) ∨ (k = 4 ∧ a0 = 3.465) ∨
      (k = 5 ∧ a0 = 2.772) ∨ (k = 6 ∧ a0 = 2.31) ∨ (k = 7 ∧ a0 = 1.98) ∨
      (k = 8 ∧ a0 = 1.7325) ∨ (k = 9 ∧ a0 = 1.54) ∨ (k = 10 ∧ a0 = 1.4)) :
    1e4 * (1 + (k : ℝ) * a0) < (1.0 + a0 + 0.48 * a0 * a0 + 0.235 * a0 * a0 * a0) ^ k := by
  rcases h with h | h | h | h | h | h | h | h | h <;>
    (obtain ⟨hk, ha⟩ := h; subst hk; subst ha; norm_num)

/-- The rate bound for at least 4 steps covering `n * a ≥ 13.86`. -/
theorem rate_bound_four_steps (a : ℝ) (n : ℕ) (ha : 0 < a) (hn : 4 ≤ n)
    (hT : 13.86 ≤ (n : ℝ) * a) :
    1e4 * (1 + (n : ℝ) * a) < (1.0 + a + 0.48 * a * a + 0.235 * a * a * a) ^ n := by
  by_cases h14 : a ≤ 1.4
  · exact rate_bound_small_arg a n ha h14 (le_trans (by norm_num) hT)
  · have h14' : (1.4 : ℝ) ≤ a := (not_le.mp h14).le
    by_cases h9 : n ≤ 9
    · interval_cases n
      · exact rate_bound_mono_arg 3.465 a 4 (by norm_num) (by norm_num)
          (by norm_num at hT ⊢; linarith)
          (rate_bound_base 4 3.465 (Or.inr (Or.inr (Or.inl ⟨rfl, rfl⟩))))
      · exact rate_bound_mono_arg 2.772 a 5 (by norm_num) (by norm_num)
          (by norm_num at hT ⊢; linarith)
          (rate_bound_base 5 2.772 (Or.inr (Or.inr (Or.inr (Or.inl ⟨rfl, rfl⟩)))))
      · exact rate_bound_mono_arg 2.31 a 6 (by norm_num) (by norm_num)
          (by norm_num at hT ⊢; linarith)
          (rate_bound_base 6 2.31 (Or.inr (Or.inr (Or.inr (Or.inr (Or.inl ⟨rfl, rfl⟩))))))
      · exact rate_bound_mono_arg 1.98 a 7 (by norm_num) (by norm_num)
          (by norm_num at hT ⊢; linarith)
          (rate_bound_base 7 1.98
            (Or.inr (Or.inr (Or.inr (Or.inr (Or.inr (Or.inl ⟨rfl, rfl⟩)))))))
      · exact rate_bound_mono_arg 1.7325 a 8 (by norm_num) (by norm_num)
          (by norm_num at hT ⊢; linarith)
          (rate_bound_base 8 1.7325
            (Or.inr (Or.inr (Or.inr (Or.inr (Or.inr (Or.inr (Or.inl ⟨rfl, rfl⟩))))))))
      · exact rate_bound_mono_arg 1.54 a 9 (by norm_num) (by norm_num)
          (by norm_num at hT ⊢; linarith)
          (rate_bound_base 9 1.54
            (Or.inr (Or.inr (Or.inr (Or.inr (Or.inr (Or.inr (Or.inr (Or.inl ⟨rfl, rfl⟩)))))))))
    · have h10 : 10 ≤ n := by omega
      have hb := rate_bound_mono_arg 1.4 a 10 (by norm_num) (le_refl _) h14'
        (rate_bound_base 10 1.4
          (Or.inr (Or.inr (Or.inr (Or.inr (Or.inr (Or.inr (Or.inr (Or.inr ⟨rfl, rfl⟩)))))))))
      exact rate_bound_mono_steps a ha.le 10 n h10 hb

/-- The rate bound for at least 2 steps covering `n * a ≥ 25.2`. -/
theorem rate_bound_two_steps (a : ℝ) (n : ℕ) (ha : 0 < a) (hn : 2 ≤ n)
    (hT : 25.2 ≤ (n : ℝ) * a) :
    1e4 * (1 + (n : ℝ) * a) < (1.0 + a + 0.48 * a * a + 0.235 * a * a * a) ^ n := by
  by_cases h3 : n ≤ 3
  · interval_cases n
    · exact rate_bound_mono_arg 12.6 a 2 (by norm_num) (by norm_num)
        (by norm_num at hT ⊢; linarith) (rate_bound_base 2 12.6 (Or.inl ⟨rfl, rfl⟩))
    · exact rate_bound_mono_arg 8.4 a 3 (by norm_num) (by norm_num)
        (by norm_num at hT ⊢; linarith) (rate_bound_base 3 8.4 (Or.inr (Or.inl ⟨rfl, rfl⟩)))
  · exact rate_bound_four_steps a n ha (by omega) (le_trans (by norm_num) hT)

/-- The displacement after `n` simple-spring steps from rest, in closed form. -/
theorem simple_iterate_from_rest (x_goal halflife dt x : ℝ) (n : ℕ) :
    (simple_spring_iterate x_goal halflife dt x 0 n).1 - x_goal =
      fast_negexp (halflife_to_damping halflife 1e-5 / 2.0 * dt) ^ n *
        (1 + (n : ℝ) * (halflife_to_damping halflife 1e-5 / 2.0 * dt)) * (x - x_goal) := by
  rw [simple_iterate_closed_form]
  ring

end RateLemmas

section CheckedLemmas

/-- A checked quotient with a non-zero denominator is the quotient. -/
theorem checked_div_of_ne {K : Type} [LinearOrderedField K] (a b : K) (h : b ≠ 0) :
    checked_div a b = some (a / b) := if_neg h

/-- A checked quotient with a zero denominator is undefined. -/
theorem checked_div_zero {K : Type} [LinearOrderedField K] (a : K) :
    checked_div a 0 = none := if_pos rfl

/-- For a non-negative halflife the division in `halflife_to_damping` is defined. -/
theorem halflife_to_damping_checked_eq (halflife : ℝ) (hh : 0 ≤ halflife) :
    halflife_to_damping_checked halflife 1e-5 = some (halflife_to_damping halflife 1e-5) := by
  have h : halflife + 1e-5 ≠ 0 := by
    have : (0 : ℝ) < 1e-5 := by norm_num
    linarith
  simp only [halflife_to_damping_checked, halflife_to_damping, checked_div_of_ne _ _ h]

/-- For a non-zero damping ratio the division in `damping_ratio_to_stiffness` is
defined. -/
theorem damping_ratio_to_stiffness_checked_eq (ratio d : ℝ) (hr : ratio ≠ 0) :
    damping_ratio_to_stiffness_checked ratio d = some (damping_ratio_to_stiffness ratio d) := by
  have h : ratio * 2.0 ≠ 0 := mul_ne_zero hr (by norm_num)
  simp only [damping_ratio_to_stiffness_checked, damping_ratio_to_stiffness,
    checked_div_of_ne _ _ h, Option.map_some']

/-- At damping ratio zero the division in `damping_ratio_to_stiffness` is by zero. -/
theorem damping_ratio_to_stiffness_checked_zero (d : ℝ) :
    damping_ratio_to_stiffness_checked 0 d = none := by
  simp [damping_ratio_to_stiffness_checked, checked_div]

/-- With a non-negative halflife, a non-zero damping ratio and a non-zero denominator
in the phase quotient of the under-damped branch, no division of the general solver is
by zero, and the checked solver returns what the source computes. -/
theorem spring_damper_exact_checked_eq (x v x_goal v_goal ratio halflife dt : ℝ)
    (hh : 0 ≤ halflife) (hr : ratio ≠ 0)
    (hphase : -(x - (x_goal + halflife_to_damping halflife 1e-5 * v_goal /
        (damping_ratio_to_stiffness ratio (halflife_to_damping halflife 1e-5) + 1e-5))) *
        Real.sqrt (damping_ratio_to_stiffness ratio (halflife_to_damping halflife 1e-5) -
          halflife_to_damping halflife 1e-5 * halflife_to_damping halflife 1e-5 / 4.0)
        + 1e-5 ≠ 0) :
    _spring_damper_exact_checked Real.exp Real.sqrt Real.arctan Real.cos Real.sin
        x v x_goal v_goal ratio halflife dt 1e-5
      = some (_spring_damper_exact Real.exp Real.sqrt Real.arctan Real.cos Real.sin
        x v x_goal v_goal ratio halflife dt 1e-5) := by
  have heps : (0 : ℝ) < 1e-5 := by norm_num
  have hs0 : 0 ≤ damping_ratio_to_stiffness ratio (halflife_to_damping halflife 1e-5) := by
    unfold damping_ratio_to_stiffness square
    exact mul_self_nonneg _
  have hs : damping_ratio_to_stiffness ratio (halflife_to_damping halflife 1e-5) + 1e-5 ≠ 0 := by
    linarith
  unfold _spring_damper_exact_checked _spring_damper_exact
  simp only [halflife_to_damping_checked_eq halflife hh,
    damping_ratio_to_stiffness_checked_eq ratio _ hr, Option.some_bind,
    checked_div_of_ne _ _ hs]
  generalize damping_ratio_to_stiffness ratio (halflife_to_damping halflife 1e-5) = s at *
  generalize halflife_to_damping halflife 1e-5 = d at *
  by_cases h1 : |s - d * d / 4.0| < 1e-5
  · simp only [if_pos h1]
  · simp only [if_neg h1]
    by_cases h2 : s - d * d / 4.0 > 0.0
    · have hw : Real.sqrt (s - d * d / 4.0) ^ 2 + 1e-5 ≠ 0 := by
        have := sq_nonneg (Real.sqrt (s - d * d / 4.0))
        linarith
      simp only [if_pos h2, checked_div_of_ne _ _ hw, checked_div_of_ne _ _ hphase,
        Option.some_bind]
    · simp only [if_neg h2]
      by_cases h3 : s - d * d / 4.0 < 0.0
      · have hpos : 0 < d ^ 2 - 4.0 * s := by
          norm_num at h3 ⊢
          linarith
        have hsq : 0 < Real.sqrt (d ^ 2 - 4.0 * s) := Real.sqrt_pos.mpr hpos
        have hy : (d - Real.sqrt (d ^ 2 - 4.0 * s)) / 2.0 -
            (d + Real.sqrt (d ^ 2 - 4.0 * s)) / 2.0 ≠ 0 := by
          have : (d - Real.sqrt (d ^ 2 - 4.0 * s)) / 2.0 -
              (d + Real.sqrt (d ^ 2 - 4.0 * s)) / 2.0 = -Real.sqrt (d ^ 2 - 4.0 * s) := by ring
          rw [this]
          exact neg_ne_zero.mpr hsq.ne'
        simp only [if_pos h3, checked_div_of_ne _ _ hy, Option.some_bind]
      · simp only [if_neg h3]

end CheckedLemmas

/-- C11 (failing inputs): at damping ratio 0 the general solver divides by
`ratio * 2.0 = 0` inside `damping_ratio_to_stiffness`; and at damping ratio `0.6`,
halflife `2.77257872224` (damping 1), goal 0 and `x = 1.5e-5` the denominator
`-(x - c) * w + eps` of the phase quotient is zero. -/
theorem spring_damper_exact_divides_by_zero :
    _spring_damper_exact_checked Real.exp Real.sqrt Real.arctan Real.cos Real.sin
        1 0 0 0 0 1 (1 / 60) 1e-5 = none ∧
    _spring_damper_exact_checked Real.exp Real.sqrt Real.arctan Real.cos Real.sin
        1.5e-5 0 0 0 0.6 2.77257872224 (1 / 60) 1e-5 = none := by
  constructor
  · unfold _spring_damper_exact_checked
    simp only [halflife_to_damping_checked_eq 1 (by norm_num),
      damping_ratio_to_stiffness_checked_zero, Option.some_bind, Option.none_bind]
  · have hd : halflife_to_damping (2.77257872224 : ℝ) 1e-5 = 1 := by
      norm_num [halflife_to_damping, Ln2]
    have hs : damping_ratio_to_stiffness (0.6 : ℝ) 1 = 25 / 36 := by
      norm_num [damping_ratio_to_stiffness, square]
    have hw : Real.sqrt ((25 / 36 : ℝ) - 1 * 1 / 4.0) = 2 / 3 := by
      have : ((25 / 36 : ℝ) - 1 * 1 / 4.0) = (2 / 3) * (2 / 3) := by norm_num
      rw [this, Real.sqrt_mul_self (by norm_num)]
    have hsne : (25 / 36 : ℝ) + 1e-5 ≠ 0 := by norm_num
    have h1 : ¬ |(25 / 36 : ℝ) - 1 * 1 / 4.0| < 1e-5 := by
      norm_num [abs_of_pos]
    have h2 : (25 / 36 : ℝ) - 1 * 1 / 4.0 > 0.0 := by norm_num
    have hw2 : ((2 / 3 : ℝ)) ^ 2 + 1e-5 ≠ 0 := by norm_num
    have hz : -((1.5e-5 : ℝ) - (0 + 1 * 0 / (25 / 36 + 1e-5))) * (2 / 3) + 1e-5 = 0 := by
      norm_num
    unfold _spring_damper_exact_checked
    simp only [halflife_to_damping_checked_eq _ (by norm_num : (0 : ℝ) ≤ 2.77257872224), hd,
      damping_ratio_to_stiffness_checked_eq _ _ (by norm_num : (0.6 : ℝ) ≠ 0), hs,
      Option.some_bind, checked_div_of_ne _ _ hsne, if_neg h1, if_pos h2, hw,
      checked_div_of_ne _ _ hw2, hz, checked_div_zero, Option.none_bind]

section ConversionLemmas

/-- The error of the halflife round trip in closed form: with `L = 4 * Ln2` and
`e = 1e-5`, it is `e * (L - h * h - h * e) / (L + e * (h + e))`. -/
theorem halflife_round_trip_error (h : ℝ) (hh : 0 < h) :
    damping_to_halflife (halflife_to_damping h 1e-5) 1e-5 - h
      = 1e-5 * (2.77258872224 - h * h - h * 1e-5) / (2.77258872224 + 1e-5 * (h + 1e-5)) := by
  have h1 : h + 1e-5 ≠ 0 := by
    have : (0 : ℝ) < 1e-5 := by norm_num
    linarith
  have h2 : (2.77258872224 : ℝ) + 1e-5 * (h + 1e-5) ≠ 0 := by
    have : (0 : ℝ) < 1e-5 * (h + 1e-5) := by
      have : (0 : ℝ) < 1e-5 := by norm_num
      positivity
    have : (0 : ℝ) < 2.77258872224 := by norm_num
    linarith
  have h3 : (4.0 * 0.69314718056 : ℝ) / (h + 1e-5) + 1e-5 ≠ 0 := by
    have : (0 : ℝ) < 4.0 * 0.69314718056 / (h + 1e-5) := by
      apply div_pos (by norm_num)
      have : (0 : ℝ) < 1e-5 := by norm_num
      linarith
    have : (0 : ℝ) < 1e-5 := by norm_num
    linarith
  unfold damping_to_halflife halflife_to_damping Ln2
  rw [eq_div_iff h2, sub_mul, div_mul_eq_mul_div, div_sub' _ _ _ h3]
  rw [div_eq_iff h3]
  field_simp
  ring

end ConversionLemmas

/-- C12 (as stated, refuted): for halflife 100 the round trip through the damping is
off by more than `1e-4 * max 1 100`. -/
theorem halflife_round_trip_fails :
    (0 : ℝ) < 100 ∧
    ¬ |damping_to_halflife (halflife_to_damping (100 : ℝ) 1e-5) 1e-5 - 100|
        ≤ 1e-4 * max 1 100 := by
  refine ⟨by norm_num, ?_⟩
  rw [halflife_round_trip_error 100 (by norm_num)]
  norm_num [abs_of_neg, abs_of_pos]

/-- C12 (amended): for a halflife `h` with `0 < h ≤ 27` the round trip
`damping_to_halflife (halflife_to_damping h)` is within `1e-4 * max 1 h` of `h`, and for
every `h > 0` it is within `1e-5 * max 1 (h * h)` of `h`. -/
theorem halflife_round_trip (h : ℝ) (hh : 0 < h) :
    (h ≤ 27 →
      |damping_to_halflife (halflife_to_damping h 1e-5) 1e-5 - h| ≤ 1e-4 * max 1 h) ∧
    |damping_to_halflife (halflife_to_damping h 1e-5) 1e-5 - h| ≤ 1e-5 * max 1 (h * h) := by
  have hD : (0 : ℝ) < 2.77258872224 + 1e-5 * (h + 1e-5) := by
    have : (0 : ℝ) < 1e-5 * (h + 1e-5) := by
      have : (0 : ℝ) < 1e-5 := by norm_num
      positivity
    have : (0 : ℝ) < 2.77258872224 := by norm_num
    linarith
  rw [halflife_round_trip_error h hh, abs_div, abs_of_pos hD]
  constructor
  · intro h27
    rw [div_le_iff₀ hD, abs_le]
    have hM1 : (1 : ℝ) ≤ max 1 h := le_max_left _ _
    have hMh : h ≤ max 1 h := le_max_right _ _
    generalize max 1 h = M at hM1 hMh
    have hhh : h * h ≤ 27 * M := by nlinarith
    have hhM : 0 ≤ h * M := by nlinarith
    norm_num at hD ⊢
    constructor <;> nlinarith
  · rw [div_le_iff₀ hD, abs_le]
    have hM1 : (1 : ℝ) ≤ max 1 (h * h) := le_max_left _ _
    have hMh : h * h ≤ max 1 (h * h) := le_max_right _ _
    generalize max 1 (h * h) = M at hM1 hMh
    have hhM : 0 ≤ h * M := by nlinarith
    norm_num at hD ⊢
    constructor <;> nlinarith

/-- C12 witness: the amended statement at halflife `1/10`. -/
theorem halflife_round_trip_witness :
    (0 : ℝ) < 1 / 10 ∧
    ((1 / 10 : ℝ) ≤ 27 →
      |damping_to_halflife (halflife_to_damping (1 / 10 : ℝ) 1e-5) 1e-5 - 1 / 10|
        ≤ 1e-4 * max 1 (1 / 10)) ∧
    |damping_to_halflife (halflife_to_damping (1 / 10 : ℝ) 1e-5) 1e-5 - 1 / 10|
      ≤ 1e-5 * max 1 (1 / 10 * (1 / 10)) :=
  ⟨by norm_num, halflife_round_trip (1 / 10) (by norm_num)⟩

/-- C13: for a positive constant `Math_PI` and a positive frequency `f`,
`stiffness_to_frequency (frequency_to_stiffness f) = f`. -/
theorem frequency_round_trip (Math_PI f : ℝ) (hpi : 0 < Math_PI) (hf : 0 < f) :
    stiffness_to_frequency Real.sqrt Math_PI (frequency_to_stiffness Math_PI f) = f := by
  have h2 : (0 : ℝ) < 2.0 * Math_PI := by
    have : (0 : ℝ) < 2.0 := by norm_num
    positivity
  have ha : (0 : ℝ) ≤ 2.0 * Math_PI * f := (mul_pos h2 hf).le
  unfold stiffness_to_frequency frequency_to_stiffness square
  rw [Real.sqrt_mul_self ha]
  field_simp

/-- C13 witness: the circle constant of Mathlib and frequency 2. -/
theorem frequency_round_trip_witness :
    0 < Real.pi ∧ (0 : ℝ) < 2 ∧
    stiffness_to_frequency Real.sqrt Real.pi (frequency_to_stiffness Real.pi 2) = 2 :=
  ⟨Real.pi_pos, by norm_num, frequency_round_trip Real.pi 2 Real.pi_pos (by norm_num)⟩

section AbsLemmas

/-- The negation of a unit quaternion is a unit quaternion. -/
theorem neg_isUnit (q : Quaternion ℝ) (hu : q.IsUnit) : (-q).IsUnit := by
  unfold Quaternion.IsUnit Quaternion.length_squared at hu ⊢
  simp only [Quaternion.neg_x, Quaternion.neg_y, Quaternion.neg_z, Quaternion.neg_w]
  linarith

/-- Negating a quaternion twice returns it. -/
theorem neg_neg_quat (q : Quaternion ℝ) : -(-q) = q := by
  ext <;> simp

/-- On a unit quaternion, `quat_abs` returns a unit quaternion with non-negative scalar
part. -/
theorem quat_abs_unit_nonneg (q : Quaternion ℝ) (hu : q.IsUnit) :
    0 ≤ (quat_abs Real.sqrt q).w ∧ (quat_abs Real.sqrt q).IsUnit := by
  by_cases hw : 0 ≤ q.w
  · rw [quat_abs_of_nonneg q hu hw]
    exact ⟨hw, hu⟩
  · have hneg : q.w < 0 := not_le.mp hw
    rw [quat_abs_of_neg q hu hneg]
    refine ⟨?_, neg_isUnit q hu⟩
    rw [Quaternion.neg_w]
    linarith

end AbsLemmas

/-- C14 (as stated, refuted): the unit quaternion `(1, 0, 0; w = 0)` and its negation
are both left as they are by `quat_abs`, so the two results differ. -/
theorem quat_abs_neg_differs :
    (⟨1, 0, 0, 0⟩ : Quaternion ℝ).IsUnit ∧
    quat_abs Real.sqrt (⟨1, 0, 0, 0⟩ : Quaternion ℝ)
      ≠ quat_abs Real.sqrt (-(⟨1, 0, 0, 0⟩ : Quaternion ℝ)) := by
  have hu : (⟨1, 0, 0, 0⟩ : Quaternion ℝ).IsUnit := by
    norm_num [Quaternion.IsUnit, Quaternion.length_squared]
  refine ⟨hu, fun h => ?_⟩
  rw [quat_abs_of_nonneg _ hu (le_refl _),
    quat_abs_of_nonneg _ (neg_isUnit _ hu) (by rw [Quaternion.neg_w]; norm_num)] at h
  have hx := congrArg Quaternion.x h
  rw [Quaternion.neg_x] at hx
  norm_num at hx

/-- C14 (amended): for a unit quaternion `q` with non-zero scalar part,
`quat_abs q = quat_abs (-q)`; for every unit quaternion `q`, both `quat_abs q` and
`quat_abs (-q)` have a non-negative scalar part and unit norm. -/
theorem quat_abs_canonical (q : Quaternion ℝ) (hu : q.IsUnit) :
    (q.w ≠ 0 → quat_abs Real.sqrt q = quat_abs Real.sqrt (-q)) ∧
    (0 ≤ (quat_abs Real.sqrt q).w ∧ (quat_abs Real.sqrt q).IsUnit) ∧
    (0 ≤ (quat_abs Real.sqrt (-q)).w ∧ (quat_abs Real.sqrt (-q)).IsUnit) := by
  refine ⟨?_, quat_abs_unit_nonneg q hu, quat_abs_unit_nonneg (-q) (neg_isUnit q hu)⟩
  intro hw
  rcases lt_or_gt_of_ne hw with hneg | hpos
  · have h2 : 0 ≤ (-q).w := by rw [Quaternion.neg_w]; linarith
    rw [quat_abs_of_neg q hu hneg, quat_abs_of_nonneg (-q) (neg_isUnit q hu) h2]
  · have h2 : (-q).w < 0 := by rw [Quaternion.neg_w]; linarith
    rw [quat_abs_of_nonneg q hu hpos.le, quat_abs_of_neg (-q) (neg_isUnit q hu) h2,
      neg_neg_quat]

/-- C14 witness: the amended statement at `(3/5, 0, 0; w = -4/5)`. -/
theorem quat_abs_canonical_witness :
    (⟨3 / 5, 0, 0, -4 / 5⟩ : Quaternion ℝ).IsUnit ∧
    ((⟨3 / 5, 0, 0, -4 / 5⟩ : Quaternion ℝ).w ≠ 0 →
      quat_abs Real.sqrt (⟨3 / 5, 0, 0, -4 / 5⟩ : Quaternion ℝ)
        = quat_abs Real.sqrt (-(⟨3 / 5, 0, 0, -4 / 5⟩ : Quaternion ℝ))) :=
  have hu : (⟨3 / 5, 0, 0, -4 / 5⟩ : Quaternion ℝ).IsUnit := by
    norm_num [Quaternion.IsUnit, Quaternion.length_squared]
  ⟨hu, (quat_abs_canonical _ hu).1⟩

section LogExpLemmas

/-- The sum of squares of the components of a real vector is not negative. -/
theorem vec_sq_nonneg (v : Vector3 ℝ) : 0 ≤ v.x * v.x + v.y * v.y + v.z * v.z :=
  add_nonneg (add_nonneg (mul_self_nonneg _) (mul_self_nonneg _)) (mul_self_nonneg _)

/-- Scaling a vector by `t` scales its length by `|t|`. -/
theorem sqrt_scaled_sq (v : Vector3 ℝ) (t : ℝ) :
    Real.sqrt (t * v.x * (t * v.x) + t * v.y * (t * v.y) + t * v.z * (t * v.z))
      = |t| * Real.sqrt (v.x * v.x + v.y * v.y + v.z * v.z) := by
  have : t * v.x * (t * v.x) + t * v.y * (t * v.y) + t * v.z * (t * v.z)
      = t * t * (v.x * v.x + v.y * v.y + v.z * v.z) := by ring
  rw [this, Real.sqrt_mul (mul_self_nonneg t), Real.sqrt_mul_self_eq_abs]

/-- Each component of a vector is at most its length in absolute value. -/
theorem abs_component_le_length (a s : ℝ) (ha : a * a ≤ s) : |a| ≤ Real.sqrt s := by
  rw [← Real.sqrt_mul_self_eq_abs]
  exact Real.sqrt_le_sqrt ha

/-- On `[0, 3.14]` a sine below `1e-8` forces an angle below `2e-8`. -/
theorem angle_small_of_sin_small (θ : ℝ) (h0 : 0 ≤ θ) (h1 : θ ≤ 3.14)
    (hs : Real.sin θ < 1e-8) : θ ≤ 2e-8 := by
  have hpi : 3.1415 < Real.pi := Real.pi_gt_d4
  have hpi4 : Real.pi < 4 := Real.pi_lt_four
  by_cases hhalf : θ ≤ Real.pi / 2
  · have h := Real.mul_le_sin h0 hhalf
    have h2 : 2 / Real.pi * θ < 1e-8 := lt_of_le_of_lt h hs
    have h3 : θ / 2 ≤ 2 / Real.pi * θ := by
      rw [div_mul_eq_mul_div, le_div_iff₀ Real.pi_pos]
      nlinarith
    norm_num at h2 h3 ⊢
    linarith
  · exfalso
    push_neg at hhalf
    have hx0 : 0 ≤ Real.pi - θ := by norm_num at h1; linarith
    have hx1 : Real.pi - θ ≤ Real.pi / 2 := by linarith
    have h := Real.mul_le_sin hx0 hx1
    rw [Real.sin_pi_sub] at h
    have h3 : (Real.pi - θ) / 2 ≤ 2 / Real.pi * (Real.pi - θ) := by
      rw [div_mul_eq_mul_div, le_div_iff₀ Real.pi_pos]
      nlinarith
    norm_num at h1 hs h3 hpi
    linarith

/-- In the small-angle branch of `quat_exp`, `quat_log` returns the vector scaled by the
normalizing factor. -/
theorem quat_log_exp_of_small (v : Vector3 ℝ)
    (hθ : Real.sqrt (v.x * v.x + v.y * v.y + v.z * v.z) < 1e-8) :
    quat_log Real.sqrt Real.arccos (quat_exp Real.sqrt Real.cos Real.sin v 1e-8) 1e-8
      = ⟨v.x * (1 / Real.sqrt (v.x * v.x + v.y * v.y + v.z * v.z + 1.0 * 1.0)),
         v.y * (1 / Real.sqrt (v.x * v.x + v.y * v.y + v.z * v.z + 1.0 * 1.0)),
         v.z * (1 / Real.sqrt (v.x * v.x + v.y * v.y + v.z * v.z + 1.0 * 1.0))⟩ := by
  have hs0 := vec_sq_nonneg v
  have hD1 : 1 ≤ Real.sqrt (v.x * v.x + v.y * v.y + v.z * v.z + 1.0 * 1.0) := by
    rw [Real.one_le_sqrt]
    norm_num
    linarith
  have ht0 : 0 ≤ 1 / Real.sqrt (v.x * v.x + v.y * v.y + v.z * v.z + 1.0 * 1.0) := by positivity
  have ht1 : 1 / Real.sqrt (v.x * v.x + v.y * v.y + v.z * v.z + 1.0 * 1.0) ≤ 1 := by
    rw [div_le_one (by linarith)]
    exact hD1
  have hexp : quat_exp Real.sqrt Real.cos Real.sin v 1e-8
      = ⟨v.x * (1 / Real.sqrt (v.x * v.x + v.y * v.y + v.z * v.z + 1.0 * 1.0)),
         v.y * (1 / Real.sqrt (v.x * v.x + v.y * v.y + v.z * v.z + 1.0 * 1.0)),
         v.z * (1 / Real.sqrt (v.x * v.x + v.y * v.y + v.z * v.z + 1.0 * 1.0)),
         1.0 * (1 / Real.sqrt (v.x * v.x + v.y * v.y + v.z * v.z + 1.0 * 1.0))⟩ := by
    unfold quat_exp
    simp only [if_pos hθ, Quaternion.normalized, Quaternion.length_squared]
  rw [hexp]
  generalize 1 / Real.sqrt (v.x * v.x + v.y * v.y + v.z * v.z + 1.0 * 1.0) = t at ht0 ht1
  have hlen : Real.sqrt (v.x * t * (v.x * t) + v.y * t * (v.y * t) + v.z * t * (v.z * t))
      < 1e-8 := by
    have : v.x * t * (v.x * t) + v.y * t * (v.y * t) + v.z * t * (v.z * t)
        = t * v.x * (t * v.x) + t * v.y * (t * v.y) + t * v.z * (t * v.z) := by ring
    rw [this, sqrt_scaled_sq, abs_of_nonneg ht0]
    calc t * Real.sqrt (v.x * v.x + v.y * v.y + v.z * v.z)
        ≤ 1 * Real.sqrt (v.x * v.x + v.y * v.y + v.z * v.z) :=
          mul_le_mul_of_nonneg_right ht1 (Real.sqrt_nonneg _)
      _ < 1e-8 := by rw [one_mul]; exact hθ
  unfold quat_log
  simp only [if_pos hlen]

/-- Outside its small-angle branch, `quat_exp` returns `(sin θ / θ * v; cos θ)` with
`θ` the length of `v`. -/
theorem quat_exp_of_large (v : Vector3 ℝ)
    (hθ : ¬ Real.sqrt (v.x * v.x + v.y * v.y + v.z * v.z) < 1e-8) :
    quat_exp Real.sqrt Real.cos Real.sin v 1e-8
      = ⟨Real.sin (Real.sqrt (v.x * v.x + v.y * v.y + v.z * v.z)) /
            Real.sqrt (v.x * v.x + v.y * v.y + v.z * v.z) * v.x,
         Real.sin (Real.sqrt (v.x * v.x + v.y * v.y + v.z * v.z)) /
            Real.sqrt (v.x * v.x + v.y * v.y + v.z * v.z) * v.y,
         Real.sin (Real.sqrt (v.x * v.x + v.y * v.y + v.z * v.z)) /
            Real.sqrt (v.x * v.x + v.y * v.y + v.z * v.z) * v.z,
         Real.cos (Real.sqrt (v.x * v.x + v.y * v.y + v.z * v.z))⟩ := by
  have hs0 := vec_sq_nonneg v
  have hθge : (1e-8 : ℝ) ≤ Real.sqrt (v.x * v.x + v.y * v.y + v.z * v.z) := not_lt.mp hθ
  have hθpos : 0 < Real.sqrt (v.x * v.x + v.y * v.y + v.z * v.z) :=
    lt_of_lt_of_le (by norm_num) hθge
  have hsq : Real.sqrt (v.x * v.x + v.y * v.y + v.z * v.z) *
      Real.sqrt (v.x * v.x + v.y * v.y + v.z * v.z) = v.x * v.x + v.y * v.y + v.z * v.z :=
    Real.mul_self_sqrt hs0
  unfold quat_exp
  simp only [if_neg hθ]
  apply normalized_of_isUnit
  unfold Quaternion.IsUnit Quaternion.length_squared
  simp only
  generalize Real.sqrt (v.x * v.x + v.y * v.y + v.z * v.z) = θ at hθpos hsq
  have hne : θ ≠ 0 := hθpos.ne'
  have hcs := Real.sin_sq_add_cos_sq θ
  have : Real.sin θ / θ * v.x * (Real.sin θ / θ * v.x) + Real.sin θ / θ * v.y *
      (Real.sin θ / θ * v.y) + Real.sin θ / θ * v.z * (Real.sin θ / θ * v.z)
      = Real.sin θ ^ 2 * (v.x * v.x + v.y * v.y + v.z * v.z) / (θ * θ) := by
    field_simp
    ring
  rw [this, ← hsq, mul_div_assoc, div_self (mul_ne_zero hne hne), mul_one]
  rw [← pow_two (Real.cos θ)]
  exact hcs

end LogExpLemmas

section LogExpBranches

/-- Outside the small-angle branch of `quat_exp` and for an angle of at most `3.14`,
`quat_log` after `quat_exp` is within `1e-5` of the vector on each component. -/
theorem quat_log_exp_of_large (v : Vector3 ℝ)
    (hθ : ¬ Real.sqrt (v.x * v.x + v.y * v.y + v.z * v.z) < 1e-8)
    (hv : Real.sqrt (v.x * v.x + v.y * v.y + v.z * v.z) ≤ 3.14) :
    Vector3.CloseTo 1e-5
      (quat_log Real.sqrt Real.arccos (quat_exp Real.sqrt Real.cos Real.sin v 1e-8) 1e-8) v := by
  have hs0 := vec_sq_nonneg v
  have hxs : v.x * v.x ≤ v.x * v.x + v.y * v.y + v.z * v.z := by
    linarith [mul_self_nonneg v.y, mul_self_nonneg v.z]
  have hys : v.y * v.y ≤ v.x * v.x + v.y * v.y + v.z * v.z := by
    linarith [mul_self_nonneg v.x, mul_self_nonneg v.z]
  have hzs : v.z * v.z ≤ v.x * v.x + v.y * v.y + v.z * v.z := by
    linarith [mul_self_nonneg v.x, mul_self_nonneg v.y]
  have hax := abs_component_le_length _ _ hxs
  have hay := abs_component_le_length _ _ hys
  have haz := abs_component_le_length _ _ hzs
  have hθge : (1e-8 : ℝ) ≤ Real.sqrt (v.x * v.x + v.y * v.y + v.z * v.z) := not_lt.mp hθ
  have hθpos : 0 < Real.sqrt (v.x * v.x + v.y * v.y + v.z * v.z) :=
    lt_of_lt_of_le (by norm_num) hθge
  have hlen := sqrt_scaled_sq v (Real.sin (Real.sqrt (v.x * v.x + v.y * v.y + v.z * v.z)) /
    Real.sqrt (v.x * v.x + v.y * v.y + v.z * v.z))
  rw [quat_exp_of_large v hθ]
  generalize Real.sqrt (v.x * v.x + v.y * v.y + v.z * v.z) = θ at *
  have hθpi : θ ≤ Real.pi := by
    have := Real.pi_gt_d2
    linarith
  have hS0 : 0 ≤ Real.sin θ := Real.sin_nonneg_of_nonneg_of_le_pi hθpos.le hθpi
  have hSθ : Real.sin θ ≤ θ := Real.sin_le hθpos.le
  have hr0 : 0 ≤ Real.sin θ / θ := div_nonneg hS0 hθpos.le
  have hr1 : Real.sin θ / θ ≤ 1 := (div_le_one hθpos).mpr hSθ
  rw [abs_of_nonneg hr0, div_mul_cancel₀ _ hθpos.ne'] at hlen
  unfold quat_log
  simp only [hlen]
  by_cases hS : Real.sin θ < 1e-8
  · -- the logarithm returns the vector part as it is; the angle is tiny
    simp only [if_pos hS, Vector3.CloseTo]
    have hθsmall := angle_small_of_sin_small θ hθpos.le hv hS
    have hcomp : ∀ a : ℝ, |a| ≤ θ → |Real.sin θ / θ * a - a| ≤ 1e-5 := by
      intro a ha
      have : Real.sin θ / θ * a - a = a * (Real.sin θ / θ - 1) := by ring
      rw [this, abs_mul]
      have h2 : |Real.sin θ / θ - 1| ≤ 1 := by
        rw [abs_le]; constructor <;> linarith
      calc |a| * |Real.sin θ / θ - 1| ≤ θ * 1 :=
            mul_le_mul ha h2 (abs_nonneg _) hθpos.le
        _ ≤ 1e-5 := by norm_num at hθsmall ⊢; linarith
    exact ⟨hcomp _ hax, hcomp _ hay, hcomp _ haz⟩
  · -- the logarithm recovers the angle and the axis exactly
    have hSpos : 0 < Real.sin θ := lt_of_lt_of_le (by norm_num) (not_lt.mp hS)
    have hclamp : clampf (Real.cos θ) (-1.0) 1.0 = Real.cos θ := by
      unfold clampf
      rw [if_neg (by norm_num; exact Real.cos_le_one θ),
        if_neg (by norm_num; exact Real.neg_one_le_cos θ)]
    simp only [if_neg hS, hclamp, Real.arccos_cos hθpos.le hθpi, Vector3.CloseTo]
    have hcomp : ∀ a : ℝ, Real.sin θ / θ * a / Real.sin θ * θ = a := by
      intro a
      field_simp
      ring
    refine ⟨?_, ?_, ?_⟩
    · show |Real.sin θ / θ * v.x / Real.sin θ * θ - v.x| ≤ 1e-5
      rw [hcomp, sub_self, abs_zero]; norm_num
    · show |Real.sin θ / θ * v.y / Real.sin θ * θ - v.y| ≤ 1e-5
      rw [hcomp, sub_self, abs_zero]; norm_num
    · show |Real.sin θ / θ * v.z / Real.sin θ * θ - v.z| ≤ 1e-5
      rw [hcomp, sub_self, abs_zero]; norm_num

end LogExpBranches

/-- C15 (as stated, refuted): for the tangent vector `(π, 0, 0)` the exponential is
`(0, 0, 0; w = -1)`, whose logarithm is the zero vector, not `(π, 0, 0)`. -/
theorem quat_log_exp_fails_at_pi :
    ¬ Vector3.CloseTo 1e-5
      (quat_log Real.sqrt Real.arccos
        (quat_exp Real.sqrt Real.cos Real.sin ⟨Real.pi, 0, 0⟩ 1e-8) 1e-8)
      ⟨Real.pi, 0, 0⟩ := by
  have hge : ¬ Real.pi < 1e-8 := by
    have := Real.pi_gt_three
    norm_num
    linarith
  have hexp : quat_exp Real.sqrt Real.cos Real.sin (⟨Real.pi, 0, 0⟩ : Vector3 ℝ) 1e-8
      = ⟨0, 0, 0, -1⟩ := by
    unfold quat_exp
    simp only [mul_zero, add_zero, Real.sqrt_mul_self Real.pi_pos.le, if_neg hge, Real.cos_pi,
      Real.sin_pi, zero_div, zero_mul]
    apply normalized_of_isUnit
    norm_num [Quaternion.IsUnit, Quaternion.length_squared]
  have hlog : quat_log Real.sqrt Real.arccos (⟨0, 0, 0, -1⟩ : Quaternion ℝ) 1e-8
      = ⟨0, 0, 0⟩ := by
    unfold quat_log
    simp only [mul_zero, add_zero, Real.sqrt_zero]
    rw [if_pos (by norm_num)]
  rw [hexp, hlog]
  intro h
  have hx := h.1
  simp only [zero_sub, abs_neg, abs_of_pos Real.pi_pos] at hx
  have := Real.pi_gt_three
  norm_num at hx
  linarith

/-- C15 (amended): for every tangent vector `v` of length at most `3.14`,
`quat_log (quat_exp v)` is within `1e-5` of `v` on each component. -/
theorem quat_log_exp (v : Vector3 ℝ)
    (hv : Real.sqrt (v.x * v.x + v.y * v.y + v.z * v.z) ≤ 3.14) :
    Vector3.CloseTo 1e-5
      (quat_log Real.sqrt Real.arccos (quat_exp Real.sqrt Real.cos Real.sin v 1e-8) 1e-8) v := by
  by_cases hθ : Real.sqrt (v.x * v.x + v.y * v.y + v.z * v.z) < 1e-8
  · rw [quat_log_exp_of_small v hθ]
    have hs0 := vec_sq_nonneg v
    have hs : v.x * v.x + v.y * v.y + v.z * v.z < 1e-16 := by
      have := (Real.sqrt_lt' (by norm_num : (0 : ℝ) < 1e-8)).mp hθ
      norm_num at this ⊢
      linarith
    have hD1 : 1 ≤ Real.sqrt (v.x * v.x + v.y * v.y + v.z * v.z + 1.0 * 1.0) := by
      rw [Real.one_le_sqrt]
      norm_num
      linarith
    have ht0 : 0 ≤ 1 / Real.sqrt (v.x * v.x + v.y * v.y + v.z * v.z + 1.0 * 1.0) := by
      positivity
    have ht1 : 1 / Real.sqrt (v.x * v.x + v.y * v.y + v.z * v.z + 1.0 * 1.0) ≤ 1 := by
      rw [div_le_one (by linarith)]
      exact hD1
    have hxs : v.x * v.x ≤ v.x * v.x + v.y * v.y + v.z * v.z := by
      linarith [mul_self_nonneg v.y, mul_self_nonneg v.z]
    have hys : v.y * v.y ≤ v.x * v.x + v.y * v.y + v.z * v.z := by
      linarith [mul_self_nonneg v.x, mul_self_nonneg v.z]
    have hzs : v.z * v.z ≤ v.x * v.x + v.y * v.y + v.z * v.z := by
      linarith [mul_self_nonneg v.x, mul_self_nonneg v.y]
    exact ⟨(small_angle_vector_bounds _ _ _ hxs hs ht0 ht1).1,
      (small_angle_vector_bounds _ _ _ hys hs ht0 ht1).1,
      (small_angle_vector_bounds _ _ _ hzs hs ht0 ht1).1⟩
  · exact quat_log_exp_of_large v hθ hv

/-- C15 witness: the amended statement at the vector `(1, 0, 0)`. -/
theorem quat_log_exp_witness :
    Real.sqrt ((⟨1, 0, 0⟩ : Vector3 ℝ).x * (⟨1, 0, 0⟩ : Vector3 ℝ).x +
      (⟨1, 0, 0⟩ : Vector3 ℝ).y * (⟨1, 0, 0⟩ : Vector3 ℝ).y +
      (⟨1, 0, 0⟩ : Vector3 ℝ).z * (⟨1, 0, 0⟩ : Vector3 ℝ).z) ≤ 3.14 ∧
    Vector3.CloseTo 1e-5
      (quat_log Real.sqrt Real.arccos
        (quat_exp Real.sqrt Real.cos Real.sin (⟨1, 0, 0⟩ : Vector3 ℝ) 1e-8) 1e-8) ⟨1, 0, 0⟩ :=
  have h : Real.sqrt ((⟨1, 0, 0⟩ : Vector3 ℝ).x * (⟨1, 0, 0⟩ : Vector3 ℝ).x +
      (⟨1, 0, 0⟩ : Vector3 ℝ).y * (⟨1, 0, 0⟩ : Vector3 ℝ).y +
      (⟨1, 0, 0⟩ : Vector3 ℝ).z * (⟨1, 0, 0⟩ : Vector3 ℝ).z) ≤ 3.14 := by
    norm_num
  ⟨h, quat_log_exp ⟨1, 0, 0⟩ h⟩

section VelocityLemmas

/-- For a goal above `x` and a positive velocity cap, the halflife returned by
`maximum_spring_velocity_to_halflife` is positive and at most a constant times the
distance to the goal. -/
theorem maximum_spring_velocity_to_halflife_bound (x x_goal v_max : ℝ) (hv : 0 < v_max)
    (hx : x < x_goal) :
    0 < maximum_spring_velocity_to_halflife Real.exp x x_goal v_max ∧
    maximum_spring_velocity_to_halflife Real.exp x x_goal v_max
      ≤ 4.0 * Ln2 / (2.0 * (v_max * Real.exp 1.0)) * (x_goal - x) := by
  have hδ : 0 < x_goal - x := sub_pos.mpr hx
  have he : 0 < Real.exp 1.0 := Real.exp_pos _
  have hL : (0 : ℝ) < 4.0 * Ln2 := by norm_num [Ln2]
  have hA : 0 < 2.0 * (v_max / (x_goal - x) * Real.exp 1.0) := by
    have : (0 : ℝ) < 2.0 := by norm_num
    positivity
  have heps : (0 : ℝ) < 1e-5 := by norm_num
  have hB : 0 < 2.0 * (v_max * Real.exp 1.0) := by
    have : (0 : ℝ) < 2.0 := by norm_num
    positivity
  unfold maximum_spring_velocity_to_halflife damping_to_halflife
  constructor
  · exact div_pos hL (by linarith)
  · have hA' : 2.0 * (v_max / (x_goal - x) * Real.exp 1.0)
        = 2.0 * (v_max * Real.exp 1.0) / (x_goal - x) := by
      field_simp
    have hrhs : 4.0 * Ln2 / (2.0 * (v_max * Real.exp 1.0)) * (x_goal - x)
        = 4.0 * Ln2 / (2.0 * (v_max / (x_goal - x) * Real.exp 1.0)) := by
      rw [hA']
      field_simp
    rw [hrhs]
    exact div_le_div_of_nonneg_left hL.le hA (by linarith)

end VelocityLemmas

/-- C16 (as stated, refuted): for `x = 0` and `v_max = 1` the absolute value of
`maximum_spring_velocity_to_halflife` does not tend to infinity as the goal tends to `x`
from above. -/
theorem maximum_spring_velocity_to_halflife_not_unbounded :
    (0 : ℝ) < 1 ∧
    ¬ Filter.Tendsto
      (fun x_goal : ℝ => |maximum_spring_velocity_to_halflife Real.exp 0 x_goal 1|)
      (nhdsWithin 0 (Set.Ioi 0)) Filter.atTop := by
  refine ⟨one_pos, fun h => ?_⟩
  have h1 := h.eventually_ge_atTop (4.0 * Ln2 / (2.0 * (1 * Real.exp 1.0)) + 1)
  have h2 : ∀ᶠ x_goal : ℝ in nhdsWithin 0 (Set.Ioi 0), x_goal ∈ Set.Ioo (0 : ℝ) 1 :=
    Ioo_mem_nhdsWithin_Ioi (Set.left_mem_Ico.mpr one_pos)
  obtain ⟨g, hg1, hg2⟩ := (h1.and h2).exists
  obtain ⟨hpos, hle⟩ := maximum_spring_velocity_to_halflife_bound 0 g 1 one_pos hg2.1
  rw [abs_of_pos hpos] at hg1
  have hC : (0 : ℝ) ≤ 4.0 * Ln2 / (2.0 * (1 * Real.exp 1.0)) := by
    have : (0 : ℝ) < 4.0 * Ln2 := by norm_num [Ln2]
    have : (0 : ℝ) < Real.exp 1.0 := Real.exp_pos _
    positivity
  have : 4.0 * Ln2 / (2.0 * (1 * Real.exp 1.0)) * (g - 0)
      ≤ 4.0 * Ln2 / (2.0 * (1 * Real.exp 1.0)) * 1 :=
    mul_le_mul_of_nonneg_left (by linarith [hg2.2]) hC
  linarith

/-- C16 (amended): for fixed `x` and `v_max > 0`, as `x_goal - x` tends to 0 from above
the value of `maximum_spring_velocity_to_halflife (x, x_goal, v_max)` tends to 0. -/
theorem maximum_spring_velocity_to_halflife_tendsto_zero (x v_max : ℝ) (hv : 0 < v_max) :
    Filter.Tendsto
      (fun x_goal : ℝ => |maximum_spring_velocity_to_halflife Real.exp x x_goal v_max|)
      (nhdsWithin x (Set.Ioi x)) (nhds 0) := by
  have hlin : Filter.Tendsto
      (fun x_goal : ℝ => 4.0 * Ln2 / (2.0 * (v_max * Real.exp 1.0)) * (x_goal - x))
      (nhdsWithin x (Set.Ioi x)) (nhds 0) := by
    have hc : Continuous
        (fun x_goal : ℝ => 4.0 * Ln2 / (2.0 * (v_max * Real.exp 1.0)) * (x_goal - x)) := by
      fun_prop
    have := hc.continuousAt.tendsto (x := x)
    simp only [sub_self, mul_zero] at this
    exact tendsto_nhdsWithin_of_tendsto_nhds this
  refine tendsto_of_tendsto_of_tendsto_of_le_of_le' tendsto_const_nhds hlin ?_ ?_
  · exact Filter.Eventually.of_forall (fun _ => abs_nonneg _)
  · filter_upwards [self_mem_nhdsWithin] with g hg
    obtain ⟨hpos, hle⟩ := maximum_spring_velocity_to_halflife_bound x g v_max hv hg
    rw [abs_of_pos hpos]
    exact hle

/-- C16 witness: the amended limit at `x = 0`, `v_max = 1`. -/
theorem maximum_spring_velocity_to_halflife_tendsto_zero_witness :
    (0 : ℝ) < 1 ∧
    Filter.Tendsto
      (fun x_goal : ℝ => |maximum_spring_velocity_to_halflife Real.exp 0 x_goal 1|)
      (nhdsWithin 0 (Set.Ioi 0)) (nhds 0) :=
  ⟨one_pos, maximum_spring_velocity_to_halflife_tendsto_zero 0 1 one_pos⟩

section BufferLemmas

/-- Writing back the value an entry already has leaves the list unchanged. -/
theorem set_getElem?_self {α : Type} (p : List α) (i : Nat) (a : α) (h : p[i]? = some a) :
    p.set i a = p := by
  apply List.ext_getElem?
  intro j
  rw [List.getElem?_set]
  by_cases hij : i = j
  · subst hij
    have hlt : i < p.length := (List.getElem?_eq_some.mp h).1
    rw [if_pos rfl, if_pos hlt, h]
  · rw [if_neg hij]

/-- The denormalizing min-max loop from index `i` commutes with a write below `i`. -/
theorem denormalize_minmax_loop_set (KSN : ℝ) (f : MMFeature ℝ) (n : Nat) :
    ∀ (i : Nat) (q : List ℝ) (j : Nat) (b : ℝ), j < i →
      f._denormalize_minmax_loop KSN n i (q.set j b)
        = (f._denormalize_minmax_loop KSN n i q).map (fun r => r.set j b) := by
  induction n with
  | zero =>
    intro i q j b _
    simp [MMFeature._denormalize_minmax_loop]
  | succ n ih =>
    intro i q j b hji
    have hne : j ≠ i := Nat.ne_of_lt hji
    simp only [MMFeature._denormalize_minmax_loop]
    cases hmx : f.maxes[i]? with
    | none => simp
    | some mx =>
      cases hmn : f.mins[i]? with
      | none => simp
      | some mn =>
        simp only
        by_cases hskip : |mx - mn| < KSN
        · simp only [if_pos hskip]
          exact ih (i + 1) q j b (Nat.lt_succ_of_lt hji)
        · simp only [if_neg hskip, List.getElem?_set_ne hne]
          cases hq : q[i]? with
          | none => simp
          | some qi =>
            simp only
            rw [List.set_comm _ _ _ hne]
            exact ih (i + 1) _ j b (Nat.lt_succ_of_lt hji)

/-- The min-max loops undo each other: running the normalizing loop over indices
`i, …, i + n - 1` that lie inside the buffer and the statistics arrays succeeds, keeps the
length and the entries below `i`, and the denormalizing loop over the same indices
restores the buffer. -/
theorem minmax_loops_round_trip (KSN : ℝ) (hK : 0 < KSN) (f : MMFeature ℝ) (n : Nat) :
    ∀ (i : Nat) (p : List ℝ), i + n ≤ p.length → i + n ≤ f.maxes.length →
      i + n ≤ f.mins.length →
      ∃ p1, f._normalize_minmax_loop KSN n i p = some p1 ∧ p1.length = p.length ∧
        (∀ j, j < i → p1[j]? = p[j]?) ∧
        f._denormalize_minmax_loop KSN n i p1 = some p := by
  induction n with
  | zero =>
    intro i p _ _ _
    exact ⟨p, rfl, rfl, fun _ _ => rfl, rfl⟩
  | succ n ih =>
    intro i p hp hmaxes hmins
    have hip : i < p.length := by omega
    have himx : i < f.maxes.length := by omega
    have himn : i < f.mins.length := by omega
    have hmx : f.maxes[i]? = some f.maxes[i] := List.getElem?_eq_getElem himx
    have hmn : f.mins[i]? = some f.mins[i] := List.getElem?_eq_getElem himn
    have hpi : p[i]? = some p[i] := List.getElem?_eq_getElem hip
    simp only [MMFeature._normalize_minmax_loop, MMFeature._denormalize_minmax_loop, hmx, hmn]
    by_cases hskip : |f.maxes[i] - f.mins[i]| < KSN
    · simp only [if_pos hskip]
      obtain ⟨p1, h1, h2, h3, h4⟩ := ih (i + 1) p (by omega) (by omega) (by omega)
      exact ⟨p1, h1, h2, fun j hj => h3 j (Nat.lt_succ_of_lt hj), h4⟩
    · simp only [if_neg hskip, hpi]
      have hdelta : f.maxes[i] - f.mins[i] ≠ 0 := by
        intro h0
        apply hskip
        rw [h0, abs_zero]
        exact hK
      obtain ⟨p1, h1, h2, h3, h4⟩ := ih (i + 1)
        (p.set i ((p[i] - f.mins[i]) / (f.maxes[i] - f.mins[i])))
        (by rw [List.length_set]; omega) (by omega) (by omega)
      refine ⟨p1, h1, by rw [h2, List.length_set], ?_, ?_⟩
      · intro j hj
        rw [h3 j (Nat.lt_succ_of_lt hj), List.getElem?_set_ne (Nat.ne_of_gt hj)]
      · have hp1i : p1[i]? = some ((p[i] - f.mins[i]) / (f.maxes[i] - f.mins[i])) := by
          rw [h3 i (Nat.lt_succ_self i), List.getElem?_set_self hip]
        simp only [hp1i]
        rw [denormalize_minmax_loop_set KSN f n (i + 1) p1 i _ (Nat.lt_succ_self i), h4]
        simp only [Option.map_some', List.set_set]
        have hval : (p[i] - f.mins[i]) / (f.maxes[i] - f.mins[i]) * (f.maxes[i] - f.mins[i])
            + f.mins[i] = p[i] := by
          rw [div_mul_cancel₀ _ hdelta]
          ring
        rw [hval, set_getElem?_self p i p[i] hpi]

/-- The denormalizing standard loop from index `i` commutes with a write below `i`. -/
theorem denormalize_standard_loop_set (KSN : ℝ) (f : MMFeature ℝ) (n : Nat) :
    ∀ (i : Nat) (q : List ℝ) (j : Nat) (b : ℝ), j < i →
      f._denormalize_standard_loop KSN n i (q.set j b)
        = (f._denormalize_standard_loop KSN n i q).map (fun r => r.set j b) := by
  induction n with
  | zero =>
    intro i q j b _
    simp [MMFeature._denormalize_standard_loop]
  | succ n ih =>
    intro i q j b hji
    have hne : j ≠ i := Nat.ne_of_lt hji
    simp only [MMFeature._denormalize_standard_loop, List.getElem?_set_ne hne]
    cases hq : q[i]? with
    | none => simp
    | some qi =>
      cases hsd : f.std_devs[i]? with
      | none => simp
      | some sd =>
        cases hmean : f.means[i]? with
        | none => simp
        | some mean =>
          simp only
          rw [List.set_comm _ _ _ hne]
          exact ih (i + 1) _ j b (Nat.lt_succ_of_lt hji)

/-- The standard loops undo each other on indices inside the buffer and the statistics
arrays, provided no `std_devs[i] + KINDA_SMALL_NUMBER` is zero. -/
theorem standard_loops_round_trip (KSN : ℝ) (f : MMFeature ℝ)
    (hsd : ∀ sd ∈ f.std_devs, sd + KSN ≠ 0) (n : Nat) :
    ∀ (i : Nat) (p : List ℝ), i + n ≤ p.length → i + n ≤ f.means.length →
      i + n ≤ f.std_devs.length →
      ∃ p1, f._normalize_standard_loop KSN n i p = some p1 ∧ p1.length = p.length ∧
        (∀ j, j < i → p1[j]? = p[j]?) ∧
        f._denormalize_standard_loop KSN n i p1 = some p := by
  induction n with
  | zero =>
    intro i p _ _ _
    exact ⟨p, rfl, rfl, fun _ _ => rfl, rfl⟩
  | succ n ih =>
    intro i p hp hmeans hstd
    have hip : i < p.length := by omega
    have him : i < f.means.length := by omega
    have his : i < f.std_devs.length := by omega
    have hm : f.means[i]? = some f.means[i] := List.getElem?_eq_getElem him
    have hs : f.std_devs[i]? = some f.std_devs[i] := List.getElem?_eq_getElem his
    have hpi : p[i]? = some p[i] := List.getElem?_eq_getElem hip
    have hne : f.std_devs[i] + KSN ≠ 0 := hsd _ (List.getElem_mem his)
    simp only [MMFeature._normalize_standard_loop, MMFeature._denormalize_standard_loop, hm, hs,
      hpi]
    obtain ⟨p1, h1, h2, h3, h4⟩ := ih (i + 1)
      (p.set i ((p[i] - f.means[i]) / (f.std_devs[i] + KSN)))
      (by rw [List.length_set]; omega) (by omega) (by omega)
    refine ⟨p1, h1, by rw [h2, List.length_set], ?_, ?_⟩
    · intro j hj
      rw [h3 j (Nat.lt_succ_of_lt hj), List.getElem?_set_ne (Nat.ne_of_gt hj)]
    · have hp1i : p1[i]? = some ((p[i] - f.means[i]) / (f.std_devs[i] + KSN)) := by
        rw [h3 i (Nat.lt_succ_self i), List.getElem?_set_self hip]
      simp only [hp1i]
      rw [denormalize_standard_loop_set KSN f n (i + 1) p1 i _ (Nat.lt_succ_self i), h4]
      simp only [Option.map_some', List.set_set]
      have hval : (p[i] - f.means[i]) / (f.std_devs[i] + KSN) * (f.std_devs[i] + KSN)
          + f.means[i] = p[i] := by
        rw [div_mul_cancel₀ _ hne]
        ring
      rw [hval, set_getElem?_self p i p[i] hpi]

end BufferLemmas

/-- C17: in the modes `MinMax` and `Standard`, for a buffer and statistics arrays whose
lengths are all the dimension count, a positive tolerance `KINDA_SMALL_NUMBER` and no
`std_devs[i] + KINDA_SMALL_NUMBER` equal to zero, `denormalize` after `normalize` accesses
no index outside an array and returns the buffer it started from. -/
theorem normalize_denormalize_round_trip (KSN : ℝ) (hK : 0 < KSN) (f : MMFeature ℝ)
    (v : List ℝ)
    (hmode : f.normalization_mode = NormalizationMode.MinMax ∨
      f.normalization_mode = NormalizationMode.Standard)
    (hv : (v.length : Int) = f.dimension_count)
    (hmins : (f.mins.length : Int) = f.dimension_count)
    (hmaxes : (f.maxes.length : Int) = f.dimension_count)
    (hmeans : (f.means.length : Int) = f.dimension_count)
    (hstd : (f.std_devs.length : Int) = f.dimension_count)
    (hsd : ∀ sd ∈ f.std_devs, sd + KSN ≠ 0) :
    (f.normalize KSN (some v)).bind (f.denormalize KSN) = some (some v) := by
  have hn : f.dimension_count.toNat = v.length := by omega
  rcases hmode with hm | hm
  · obtain ⟨p1, h1, _, _, h4⟩ := minmax_loops_round_trip KSN hK f v.length 0 v
      (by omega) (by omega) (by omega)
    simp only [MMFeature.normalize, MMFeature.denormalize, hm, MMFeature._normalize_minmax,
      MMFeature._denormalize_minmax, hn, h1, Option.map_some', Option.some_bind, h4]
  · obtain ⟨p1, h1, _, _, h4⟩ := standard_loops_round_trip KSN f hsd v.length 0 v
      (by omega) (by omega) (by omega)
    have hlen : ¬ ((f.std_devs.length : Int) ≠ f.dimension_count) := by
      rw [hstd]; simp
    simp only [MMFeature.normalize, MMFeature.denormalize, hm, MMFeature._normalize_standard,
      MMFeature._denormalize_standard, hn, h1, Option.map_some', Option.some_bind, h4,
      if_neg hlen]

/-- C17 witness: a `MinMax` feature of dimension 2 whose second dimension has range 0
and is skipped, with tolerance `1e-4`. -/
theorem normalize_denormalize_round_trip_witness :
    (0 : ℝ) < 1e-4 ∧ (∀ sd ∈ ([1, 1] : List ℝ), sd + 1e-4 ≠ 0) ∧
    (MMFeature.normalize (1e-4 : ℝ)
        ⟨NormalizationMode.MinMax, 2, [0, 0], [1, 1], [3, 5], [1, 5]⟩ (some [2, 7])).bind
      (MMFeature.denormalize (1e-4 : ℝ)
        ⟨NormalizationMode.MinMax, 2, [0, 0], [1, 1], [3, 5], [1, 5]⟩)
      = some (some [2, 7]) :=
  have hK : (0 : ℝ) < 1e-4 := by norm_num
  have hsd : ∀ sd ∈ ([1, 1] : List ℝ), sd + 1e-4 ≠ 0 := by
    intro sd hsd
    simp only [List.mem_cons, List.mem_singleton, List.not_mem_nil, or_false, or_self] at hsd
    rw [hsd]
    norm_num
  ⟨hK, hsd, normalize_denormalize_round_trip 1e-4 hK
    ⟨NormalizationMode.MinMax, 2, [0, 0], [1, 1], [3, 5], [1, 5]⟩ [2, 7] (Or.inl rfl)
    rfl rfl rfl rfl rfl hsd⟩

section MismatchLemmas

/-- In `Standard` mode a `std_devs` array whose length is not the dimension count makes
`denormalize` return at once with the buffer unchanged. -/
theorem denormalize_standard_guard (KSN : ℝ) (f : MMFeature ℝ) (p : List ℝ)
    (hm : f.normalization_mode = NormalizationMode.Standard)
    (hlen : (f.std_devs.length : Int) ≠ f.dimension_count) :
    f.denormalize KSN (some p) = some (some p) := by
  simp only [MMFeature.denormalize, hm, MMFeature._denormalize_standard, if_pos hlen]

end MismatchLemmas

/-- C18 (failing inputs): with dimension count 1 and tolerance `1e-4`, (1) in `MinMax`
mode empty `mins` and `maxes` arrays are read at index 0; (2) in `Standard` mode an
empty `means` array beside a `std_devs` array of the right length is read at index 0;
(3) in `Standard` mode a `means` array of length 2 does not stop the call, which
rewrites the buffer `[1]`. -/
theorem denormalize_dimension_mismatch :
    MMFeature.denormalize (1e-4 : ℝ) ⟨NormalizationMode.MinMax, 1, [0], [1], [], []⟩
      (some [1]) = none ∧
    MMFeature.denormalize (1e-4 : ℝ) ⟨NormalizationMode.Standard, 1, [], [1], [1], [0]⟩
      (some [1]) = none ∧
    MMFeature.denormalize (1e-4 : ℝ) ⟨NormalizationMode.Standard, 1, [2, 3], [1], [1], [0]⟩
      (some [1]) = some (some [1 * (1 + 1e-4) + 2]) ∧
    ([1 * (1 + 1e-4) + 2] : List ℝ) ≠ [1] := by
  refine ⟨?_, ?_, ?_, ?_⟩
  · simp [MMFeature.denormalize, MMFeature._denormalize_minmax,
      MMFeature._denormalize_minmax_loop]
  · simp [MMFeature.denormalize, MMFeature._denormalize_standard,
      MMFeature._denormalize_standard_loop]
  · simp [MMFeature.denormalize, MMFeature._denormalize_standard,
      MMFeature._denormalize_standard_loop]
  · intro h
    have := List.head_eq_of_cons_eq h
    norm_num at this

section TransitionLemmas

/-- The squared length of a product is the product of the squared lengths. -/
theorem length_squared_mul (a b : Quaternion ℝ) :
    (a * b).length_squared = a.length_squared * b.length_squared := by
  simp only [Quaternion.length_squared, Quaternion.mul_x, Quaternion.mul_y, Quaternion.mul_z,
    Quaternion.mul_w]
  ring

/-- The inverse of a unit quaternion is a unit quaternion. -/
theorem inverse_isUnit (q : Quaternion ℝ) (hu : q.IsUnit) : q.inverse.IsUnit := by
  unfold Quaternion.IsUnit Quaternion.length_squared Quaternion.inverse at *
  simp only
  linarith

/-- The product of unit quaternions is a unit quaternion. -/
theorem mul_isUnit (a b : Quaternion ℝ) (ha : a.IsUnit) (hb : b.IsUnit) : (a * b).IsUnit := by
  unfold Quaternion.IsUnit at *
  rw [length_squared_mul, ha, hb, mul_one]

/-- Multiplying by the inverse of a unit quaternion and then by the quaternion itself
returns the first factor. -/
theorem mul_inverse_mul_cancel (a b : Quaternion ℝ) (hb : b.IsUnit) :
    (a * b.inverse) * b = a := by
  unfold Quaternion.IsUnit Quaternion.length_squared at hb
  ext
  · simp only [Quaternion.mul_x, Quaternion.mul_y, Quaternion.mul_z, Quaternion.mul_w,
      Quaternion.inverse]
    linear_combination a.x * hb
  · simp only [Quaternion.mul_x, Quaternion.mul_y, Quaternion.mul_z, Quaternion.mul_w,
      Quaternion.inverse]
    linear_combination a.y * hb
  · simp only [Quaternion.mul_x, Quaternion.mul_y, Quaternion.mul_z, Quaternion.mul_w,
      Quaternion.inverse]
    linear_combination a.z * hb
  · simp only [Quaternion.mul_x, Quaternion.mul_y, Quaternion.mul_z, Quaternion.mul_w,
      Quaternion.inverse]
    linear_combination a.w * hb

/-- Negation moves out of a product on the left. -/
theorem neg_mul_quat (a b : Quaternion ℝ) : (-a) * b = -(a * b) := by
  ext <;> simp <;> ring

end TransitionLemmas

/-- C19: for unit quaternions `off_x`, `src_x`, `dst_x`, the orientation transition
returns a unit offset with non-negative scalar part whose product with `dst_x` is
`off_x * src_x` or its negation; the new velocity offset is `off_v + src_v - dst_v`;
and `binded_inertia_transition` returns the same rotation and angular offsets. -/
theorem inertialize_transition_quat_preserves (off_x src_x dst_x : Quaternion ℝ)
    (off_v src_v dst_v : Vector3 ℝ) (ho : off_x.IsUnit) (hs : src_x.IsUnit)
    (hd : dst_x.IsUnit) :
    (inertialize_transition_quat Real.sqrt off_x off_v src_x src_v dst_x dst_v).1.IsUnit ∧
    0 ≤ (inertialize_transition_quat Real.sqrt off_x off_v src_x src_v dst_x dst_v).1.w ∧
    ((inertialize_transition_quat Real.sqrt off_x off_v src_x src_v dst_x dst_v).1 * dst_x
        = off_x * src_x ∨
      (inertialize_transition_quat Real.sqrt off_x off_v src_x src_v dst_x dst_v).1 * dst_x
        = -(off_x * src_x)) ∧
    (inertialize_transition_quat Real.sqrt off_x off_v src_x src_v dst_x dst_v).2
      = (off_v + src_v) - dst_v ∧
    (∀ p_off_x p_off_v p_src_x p_src_v p_dst_x p_dst_v : Vector3 ℝ,
      (binded_inertia_transition Real.sqrt p_off_x p_off_v p_src_x p_src_v p_dst_x p_dst_v
          off_x off_v src_x src_v dst_x dst_v).rotation_offset
        = (inertialize_transition_quat Real.sqrt off_x off_v src_x src_v dst_x dst_v).1 ∧
      (binded_inertia_transition Real.sqrt p_off_x p_off_v p_src_x p_src_v p_dst_x p_dst_v
          off_x off_v src_x src_v dst_x dst_v).angular_offset
        = (inertialize_transition_quat Real.sqrt off_x off_v src_x src_v dst_x dst_v).2) := by
  have hp : ((off_x * src_x) * dst_x.inverse).IsUnit :=
    mul_isUnit _ _ (mul_isUnit _ _ ho hs) (inverse_isUnit _ hd)
  obtain ⟨hw, hu⟩ := quat_abs_unit_nonneg _ hp
  have h1 : (inertialize_transition_quat Real.sqrt off_x off_v src_x src_v dst_x dst_v).1
      = quat_abs Real.sqrt ((off_x * src_x) * dst_x.inverse) := by
    simp only [inertialize_transition_quat]
    exact normalized_of_isUnit _ hu
  refine ⟨by rw [h1]; exact hu, by rw [h1]; exact hw, ?_, rfl, ?_⟩
  · rw [h1]
    by_cases hsign : 0 ≤ ((off_x * src_x) * dst_x.inverse).w
    · left
      rw [quat_abs_of_nonneg _ hp hsign, mul_inverse_mul_cancel _ _ hd]
    · right
      rw [quat_abs_of_neg _ hp (not_le.mp hsign), neg_mul_quat,
        mul_inverse_mul_cancel _ _ hd]
  · intro p_off_x p_off_v p_src_x p_src_v p_dst_x p_dst_v
    exact ⟨h1.symm, rfl⟩

/-- C19 witness: identity offset, a half turn about x as source, a half turn about y as
destination. -/
theorem inertialize_transition_quat_preserves_witness :
    (Quaternion.identity : Quaternion ℝ).IsUnit ∧ (⟨1, 0, 0, 0⟩ : Quaternion ℝ).IsUnit ∧
    (⟨0, 1, 0, 0⟩ : Quaternion ℝ).IsUnit ∧
    (inertialize_transition_quat Real.sqrt (Quaternion.identity : Quaternion ℝ) ⟨0, 0, 0⟩
      ⟨1, 0, 0, 0⟩ ⟨1, 2, 3⟩ ⟨0, 1, 0, 0⟩ ⟨4, 5, 6⟩).1.IsUnit :=
  have h2 : (⟨1, 0, 0, 0⟩ : Quaternion ℝ).IsUnit := by
    norm_num [Quaternion.IsUnit, Quaternion.length_squared]
  have h3 : (⟨0, 1, 0, 0⟩ : Quaternion ℝ).IsUnit := by
    norm_num [Quaternion.IsUnit, Quaternion.length_squared]
  ⟨identity_isUnit, h2, h3,
   (inertialize_transition_quat_preserves Quaternion.identity ⟨1, 0, 0, 0⟩ ⟨0, 1, 0, 0⟩
     ⟨0, 0, 0⟩ ⟨1, 2, 3⟩ ⟨4, 5, 6⟩ identity_isUnit h2 h3).1⟩

/-- C20 (as stated, refuted): on `float` values, with halflife 1 and from rest,
(1) a step of length 0 from `x = 0.1f` with goal `2^24` returns `x = 0`, not the state
it was given; (2) a step of length `1e-5f` from `x = 0.1f` with goal 100 returns a
position below `x`, further from the goal, so the factor `k` is above 1; (3) a step of
length `1e-4f` from `x = 1` with goal 0 returns `x = 1`, so `k = 1` for a positive
timestep. Every input is a number of the 32-bit format. -/
theorem simple_spring_f32_overshoot :
    (round32 (13421773 / 134217728) = some (13421773 / 134217728) ∧
      round32 (1 / 10) = some (13421773 / 134217728) ∧
      round32 16777216 = some 16777216 ∧
      _simple_spring_damper_exact_f32 (some (13421773 / 134217728)) (some 0)
          (some 16777216) (some 1) (some 0) = (some 0, some 0) ∧
      (0 : ℚ) ≠ 13421773 / 134217728) ∧
    (round32 (1 / 100000) = some (2748779 / 274877906944) ∧
      (0 : ℚ) < 2748779 / 274877906944 ∧
      _simple_spring_damper_exact_f32 (some (13421773 / 134217728)) (some 0) (some 100)
          (some 1) (some (2748779 / 274877906944))
        = (some (13107 / 131072), some (8245587 / 4294967296)) ∧
      (13107 / 131072 : ℚ) < 13421773 / 134217728 ∧
      (13421773 / 134217728 : ℚ) < 100 ∧
      ((13107 / 131072 : ℚ) - 100) / (13421773 / 134217728 - 100) > 1) ∧
    (round32 (1 / 10000) = some (13743895 / 137438953472) ∧
      (0 : ℚ) < 13743895 / 137438953472 ∧
      (_simple_spring_damper_exact_f32 (some 1) (some 0) (some 0) (some 1)
          (some (13743895 / 137438953472))).1 = some 1) := by
  decide!

/-- C20 (amended): in real arithmetic, one scalar simple-spring step from rest moves the
displacement from the goal by a factor `k` with `0 < k ≤ 1` (and `k < 1` for a positive
timestep), so the new position lies between the goal and the old position; a step of
length zero returns the state unchanged for every velocity. -/
theorem simple_spring_no_overshoot (x x_goal halflife dt : ℝ) (hh : 0 ≤ halflife)
    (hdt : 0 ≤ dt) :
    (∃ k : ℝ, 0 < k ∧ k ≤ 1 ∧ (0 < dt → k < 1) ∧
      (_simple_spring_damper_exact x 0 x_goal halflife dt).1 - x_goal = k * (x - x_goal)) ∧
    (min x_goal x ≤ (_simple_spring_damper_exact x 0 x_goal halflife dt).1 ∧
      (_simple_spring_damper_exact x 0 x_goal halflife dt).1 ≤ max x_goal x) ∧
    (dt = 0 → ∀ v : ℝ, _simple_spring_damper_exact x v x_goal halflife dt = (x, v)) := by
  have hy := half_damping_pos halflife hh
  set y : ℝ := halflife_to_damping halflife 1e-5 / 2.0 with hydef
  have ha : 0 ≤ y * dt := mul_nonneg hy.le hdt
  have hD : (1 : ℝ) + y * dt ≤ 1.0 + y * dt + 0.48 * (y * dt) * (y * dt)
      + 0.235 * (y * dt) * (y * dt) * (y * dt) := by
    have h2 : 0 ≤ y * dt * (y * dt) := mul_nonneg ha ha
    have h3 : 0 ≤ y * dt * (y * dt) * (y * dt) := mul_nonneg h2 ha
    norm_num
    nlinarith
  have hDpos : (0 : ℝ) < 1.0 + y * dt + 0.48 * (y * dt) * (y * dt)
      + 0.235 * (y * dt) * (y * dt) * (y * dt) := by linarith
  have hstep : (_simple_spring_damper_exact x 0 x_goal halflife dt).1 - x_goal
      = fast_negexp (y * dt) * (1 + y * dt) * (x - x_goal) := by
    simp only [_simple_spring_damper_exact, ← hydef]
    ring
  have hk0 : 0 < fast_negexp (y * dt) * (1 + y * dt) := by
    unfold fast_negexp
    exact mul_pos (div_pos (by norm_num) hDpos) (by linarith)
  have hk1 : fast_negexp (y * dt) * (1 + y * dt) ≤ 1 := by
    unfold fast_negexp
    rw [div_mul_eq_mul_div, div_le_iff₀ hDpos]
    norm_num at hD ⊢
    linarith
  have hklt : 0 < dt → fast_negexp (y * dt) * (1 + y * dt) < 1 := by
    intro hpos
    have ha' : 0 < y * dt := mul_pos hy hpos
    have h2 : 0 < y * dt * (y * dt) := mul_pos ha' ha'
    have h3 : 0 < y * dt * (y * dt) * (y * dt) := mul_pos h2 ha'
    unfold fast_negexp
    rw [div_mul_eq_mul_div, div_lt_iff₀ hDpos]
    norm_num
    nlinarith
  refine ⟨⟨_, hk0, hk1, hklt, hstep⟩, ?_, ?_⟩
  · generalize fast_negexp (y * dt) * (1 + y * dt) = k at hk0 hk1 hstep
    generalize (_simple_spring_damper_exact x 0 x_goal halflife dt).1 = x' at hstep
    rcases le_total x_goal x with hle | hle
    · rw [min_eq_left hle, max_eq_right hle]
      constructor <;> nlinarith
    · rw [min_eq_right hle, max_eq_left hle]
      constructor <;> nlinarith
  · intro h0 v
    rw [h0]
    simp only [_simple_spring_damper_exact, mul_zero, fast_negexp_zero]
    refine Prod.ext ?_ ?_ <;> simp

/-- C20 witness: the amended statement at halflife `1/10`, timestep `1/60`, from 1
towards 0. -/
theorem simple_spring_no_overshoot_witness :
    (0 : ℝ) ≤ 1 / 10 ∧ (0 : ℝ) ≤ 1 / 60 ∧
    ∃ k : ℝ, 0 < k ∧ k ≤ 1 ∧ ((0 : ℝ) < 1 / 60 → k < 1) ∧
      (_simple_spring_damper_exact (1 : ℝ) 0 0 (1 / 10) (1 / 60)).1 - 0 = k * (1 - 0) :=
  ⟨by norm_num, by norm_num,
   (simple_spring_no_overshoot 1 0 (1 / 10) (1 / 60) (by norm_num) (by norm_num)).1⟩

end Spring
